import Mathlib

/-!
Verification development for the Checkers engine
(`src/checkers.py` and `src/computer.py`).

The Python code is shallowly embedded: the board is its canonical 64-character
grid (here a `List Char`), coordinates are integer pairs, the two players are a
two-variant enumeration, and the mutable operations of the source become pure
functions returning new values.  Fallible external steps (the scipy curve fit
in `run`) are modelled with `Except`.  Places where the Python would raise an
`AttributeError` on boards that violate the documented well-formedness
assumptions (spec section 7) are totalised to "no move"; they are unreachable
for well-formed positions.
-/

/-- 2D integer coordinate, mirroring `checkers.vec2`. -/
structure vec2 where
  x : Int
  y : Int
  deriving DecidableEq

instance : Add vec2 := ⟨fun a b => ⟨a.x + b.x, a.y + b.y⟩⟩
instance : Sub vec2 := ⟨fun a b => ⟨a.x - b.x, a.y - b.y⟩⟩

/-- `vec2.distance`: Chebyshev distance `max(abs(dx), abs(dy))`. -/
def vec2.distance (a b : vec2) : Nat :=
  max (a.x - b.x).natAbs (a.y - b.y).natAbs

/-- `vec2.center`: midpoint of two coordinates, or `none` when the sum is odd
on either axis.  Python's `//` is floor division; on the even sums reaching the
division both conventions agree, and Lean's `Int` division here is also
floor-like on these values. -/
def vec2.center (a b : vec2) : Option vec2 :=
  if (a + b).x % 2 ≠ 0 ∨ (a + b).y % 2 ≠ 0 then none
  else some ⟨(a + b).x / 2, (a + b).y / 2⟩

/-- The two players (`checkers.Player.ONE` / `checkers.Player.TWO`). -/
inductive Player where
  | one
  | two
  deriving DecidableEq

/-- `Player.other`. -/
def Player.other : Player → Player
  | .one => .two
  | .two => .one

/-- Owner of the piece on a cell character (`Piece.player`), if any.
Cell characters are `' '` (off-board), `'.'` (empty), `'1'`/`'2'` (men),
`'a'`/`'b'` (kings). -/
def pieceOwner (c : Char) : Option Player :=
  if c = '1' ∨ c = 'a' then some Player.one
  else if c = '2' ∨ c = 'b' then some Player.two
  else none

/-- `Piece.king` for a cell character. -/
def isKingChar (c : Char) : Bool :=
  c == 'a' || c == 'b'

/-- Character of a plain man of a player. -/
def manChar : Player → Char
  | .one => '1'
  | .two => '2'

/-- Character of a king of a player (`Tile("a" if player == ONE else "b")`). -/
def kingChar : Player → Char
  | .one => 'a'
  | .two => 'b'

/-- The board: the canonical row-major 64-character grid (`Board.grid`). -/
structure Board where
  grid : List Char
  deriving DecidableEq

/-- `Board.IsInBoard`. -/
def Board.IsInBoard (pos : vec2) : Prop :=
  0 ≤ pos.x ∧ pos.x < 8 ∧ 0 ≤ pos.y ∧ pos.y < 8

instance (pos : vec2) : Decidable (Board.IsInBoard pos) := by
  unfold Board.IsInBoard
  infer_instance

/-- `Board.IsTile`: in-board and on the playable (dark) checkerboard colour. -/
def Board.IsTile (pos : vec2) : Prop :=
  Board.IsInBoard pos ∧ (pos.x + pos.y) % 2 ≠ 0

instance (pos : vec2) : Decidable (Board.IsTile pos) := by
  unfold Board.IsTile
  infer_instance

/-- Row-major index into the grid string (`pos.x + pos.y * Tile.Count`). -/
def Board.idx (pos : vec2) : Nat :=
  (pos.x + pos.y * 8).toNat

/-- `Board.get`, at the level of cell characters: `' '` plays the role of
`Tile.NO_TILE` (off-board position or off-board cell), `'.'` of `Tile.EMPTY`. -/
def Board.cell (b : Board) (pos : vec2) : Char :=
  if Board.IsInBoard pos then b.grid.getD (Board.idx pos) ' ' else ' '

/-- `Board.set`.  For the in-board coordinates at which the engine calls it the
string splice of the source is exactly a positional update. -/
def Board.set (b : Board) (pos : vec2) (c : Char) : Board :=
  ⟨b.grid.set (Board.idx pos) c⟩

/-- `Board.AllTiles`: every position, `y` outermost, as in the source. -/
def Board.AllTiles : List vec2 :=
  (List.range 8).flatMap (fun y => (List.range 8).map (fun x => ⟨Int.ofNat x, Int.ofNat y⟩))

/-- `Board.Tiles`: the playable tiles, in `AllTiles` order. -/
def Board.Tiles : List vec2 :=
  Board.AllTiles.filter (fun v => (v.x + v.y) % 2 != 0)

/-- `Board.AdjacentTiles`: the four diagonal neighbours that are in-board,
in the source's direction order. -/
def Board.AdjacentTiles (pos : vec2) : List vec2 :=
  [(⟨1, 1⟩ : vec2), ⟨1, -1⟩, ⟨-1, 1⟩, ⟨-1, -1⟩].filterMap (fun d =>
    if Board.IsInBoard (pos + d) then some (pos + d) else none)

/-- `Board.get_player_pieces`: positions of the player's pieces, in tile
iteration order. -/
def Board.get_player_pieces (b : Board) (p : Player) : List vec2 :=
  Board.Tiles.filter (fun t => pieceOwner (b.cell t) == some p)

/-- `Board.get_piece_moves`.  The inner `none => none` branch corresponds to an
adjacent off-board cell holding no piece; there the Python would dereference
`None.player` and crash, which cannot happen on well-formed boards because the
diagonal neighbour of a playable cell is playable. -/
def Board.get_piece_moves (b : Board) (pos : vec2) : List (vec2 × Bool) :=
  match pieceOwner (b.cell pos) with
  | none => []
  | some pl =>
    (Board.AdjacentTiles pos).filterMap (fun tile =>
      if isKingChar (b.cell pos) || (decide (pos.y < tile.y) == decide (pl = Player.two)) then
        if b.cell tile = '.' then some (tile, false)
        else
          match pieceOwner (b.cell tile) with
          | some q =>
            if q ≠ pl ∧ b.cell (tile + (tile - pos)) = '.' then
              some (tile + (tile - pos), true)
            else none
          | none => none
      else none)

/-- `Board.move`: move a piece, clearing the jumped-over midpoint when the two
coordinates have a grid midpoint. -/
def Board.move (b : Board) (pos pos2 : vec2) : Board :=
  if (pieceOwner (b.cell pos)).isSome then
    let b1 := (b.set pos2 (b.cell pos)).set pos '.'
    match vec2.center pos pos2 with
    | some mid => b1.set mid '.'
    | none => b1
  else b

/-- Per-piece value used by `Board.score`. -/
def Board.evaluate (b : Board) (pos : vec2) : Int :=
  if isKingChar (b.cell pos) then 7
  else
    3 + (if pos.x = 0 ∨ pos.x = 7 then 1 else 0)
      + (if pos.y = 0 ∨ pos.y = 7 then 1 else 0)

/-- `Board.score`: player's piece values minus the opponent's. -/
def Board.score (b : Board) (p : Player) : Int :=
  ((b.get_player_pieces p).map (b.evaluate)).sum
    - ((b.get_player_pieces p.other).map (b.evaluate)).sum

/-- Number of cells of the grid holding a piece of player `p`. -/
def countFor (b : Board) (p : Player) : Nat :=
  b.grid.countP (fun c => pieceOwner c == some p)

/-- Total number of cells of the grid holding any piece. -/
def pieceCount (b : Board) : Nat :=
  b.grid.countP (fun c => (pieceOwner c).isSome)

/-- The tiles iterated by side-level move generation: just the locked piece
when one is given, else every piece of the player. -/
def tilesFor (b : Board) (p : Player) (locked : Option vec2) : List vec2 :=
  match locked with
  | some l => [l]
  | none => b.get_player_pieces p

/-- The capturing destinations appended for one tile by the loop of
`computer.get_moves`. -/
def capsOf (b : Board) (t : vec2) : List vec2 :=
  ((b.get_piece_moves t).filter (fun m => m.2)).map (fun m => m.1)

/-- All destinations appended for one tile by the loop of
`computer.get_moves`. -/
def allOf (b : Board) (t : vec2) : List vec2 :=
  (b.get_piece_moves t).map (fun m => m.1)

/-- `computer.get_moves` (the same logic as `Game.generate_moves`): the
capturing flag together with the piece-to-destinations map, as an association
list in insertion order.  The per-tile grouping is exact because each tile is
visited once and dictionary entries appear in insertion order; a tile gets an
entry exactly when its destination list is non-empty (`defaultdict` entries
are created on first append). -/
def get_moves (b : Board) (p : Player) (locked : Option vec2) :
    Bool × List (vec2 × List vec2) :=
  let tiles := tilesFor b p locked
  let capturing := tiles.filterMap (fun t =>
    if (capsOf b t).isEmpty then none else some (t, capsOf b t))
  if capturing.isEmpty then
    let alls := tiles.filterMap (fun t =>
      if (allOf b t).isEmpty then none else some (t, allOf b t))
    (false, if locked.isSome then [] else alls)
  else (true, capturing)

/-- The last two entries of a compound move (`compound_move[-2:]`).  Real calls
always have at least two entries; the other cases are arbitrary values. -/
def last2 (cm : List vec2) : vec2 × vec2 :=
  match cm.reverse with
  | m :: a :: _ => (a, m)
  | [m] => (m, m)
  | [] => (⟨0, 0⟩, ⟨0, 0⟩)

/-- `computer.get_subsequent_moves`, with an explicit fuel in place of the
recursion of the source (the source recursion terminates because every pending
move in it is a capture; the fuel used by `get_compound_moves` is shown
sufficient below, so the fuel never runs out on reachable calls). -/
def get_subsequent_moves : Nat → Board → Player → List vec2 → List (List vec2 × Board)
  | 0, _, _, _ => []
  | fuel + 1, b, p, cm =>
    let a := (last2 cm).1
    let m := (last2 cm).2
    let b1 := b.move a m
    let r := get_moves b1 p (some m)
    if r.1 then
      match r.2 with
      | [] => []
      | (_, mvs) :: _ =>
        mvs.flatMap (fun mv => get_subsequent_moves fuel b1 p (cm ++ [mv]))
    else
      let b2 :=
        if (m.y = 0 ∨ m.y = 7) ∧ isKingChar (b1.cell m) = false then
          b1.set m (kingChar p)
        else b1
      [(cm, b2)]

/-- `computer.get_compound_moves`, fuel-explicit. -/
def get_compound_movesF (fuel : Nat) (b : Board) (p : Player) :
    List (List vec2 × Board) :=
  let r := get_moves b p none
  r.2.flatMap (fun pm =>
    pm.2.flatMap (fun mv =>
      if r.1 then
        get_subsequent_moves fuel b p [pm.1, mv]
      else
        let b1 := b.move pm.1 mv
        let b2 :=
          if (mv.y = 0 ∨ mv.y = 7) ∧ isKingChar (b1.cell mv) = false then
            b1.set mv (kingChar p)
          else b1
        [([pm.1, mv], b2)]))

/-- `computer.get_compound_moves`: the fuel `pieceCount b` is sufficient, as
every pending move of the recursion is a capture (proved below). -/
def get_compound_moves (b : Board) (p : Player) : List (List vec2 × Board) :=
  get_compound_movesF (pieceCount b) b p

/-- Scores mixed with the infinities used to seed alpha and beta
(`float('inf')` in the source; only comparisons, `max` and `min` ever touch
them, so an extended integer is a faithful model). -/
inductive XInt where
  | negInf
  | fin (v : Int)
  | posInf
  deriving DecidableEq

/-- Comparison on extended scores. -/
def XInt.le : XInt → XInt → Bool
  | .negInf, _ => true
  | _, .posInf => true
  | .fin a, .fin b => a ≤ b
  | .posInf, _ => false
  | .fin _, .negInf => false

/-- `max` on extended scores. -/
def XInt.maxX (a b : XInt) : XInt :=
  if XInt.le a b then b else a

/-- `min` on extended scores. -/
def XInt.minX (a b : XInt) : XInt :=
  if XInt.le a b then a else b

/-- The transposition cache (`computer.cache`): grid encoding to score, in
insertion order.  Keys are inserted only after a failed lookup, so they stay
distinct. -/
abbrev Cache : Type := List (List Char × Int)

/-- Cache lookup, keyed by the grid encoding. -/
def lookupCache (c : Cache) (g : List Char) : Option Int :=
  List.lookup g c

/-- Cache insertion (`cache[board.grid] = score`; the key is absent when the
source executes this). -/
def insertCache (c : Cache) (g : List Char) (s : Int) : Cache :=
  List.append c [(g, s)]

/-- The maximizing loop of `computer.minimax`, with the recursive evaluation
of a child position abstracted as `ev` (the `depth - 1` call).  Order of
operations follows the source: update alpha, update the best pair, break when
`score >= beta`. -/
def searchMax (ev : Board → XInt → XInt → Cache → Int × Cache) :
    List (List vec2 × Board) → Int × List vec2 → XInt → XInt → Cache →
      Int × List vec2 × Cache
  | [], best, _, _, c => (best.1, best.2, c)
  | (cm, nb) :: rest, best, alpha, beta, c =>
    let sc := ev nb alpha beta c
    let alpha2 := XInt.maxX alpha (XInt.fin sc.1)
    let best2 := if best.1 < sc.1 then (sc.1, cm) else best
    if XInt.le beta (XInt.fin sc.1) then (best2.1, best2.2, sc.2)
    else searchMax ev rest best2 alpha2 beta sc.2

/-- The minimizing loop of `computer.minimax`: update beta, update the best
pair, break when `score <= alpha`. -/
def searchMin (ev : Board → XInt → XInt → Cache → Int × Cache) :
    List (List vec2 × Board) → Int × List vec2 → XInt → XInt → Cache →
      Int × List vec2 × Cache
  | [], best, _, _, c => (best.1, best.2, c)
  | (cm, nb) :: rest, best, alpha, beta, c =>
    let sc := ev nb alpha beta c
    let beta2 := XInt.minX beta (XInt.fin sc.1)
    let best2 := if sc.1 < best.1 then (sc.1, cm) else best
    if XInt.le (XInt.fin sc.1) alpha then (best2.1, best2.2, sc.2)
    else searchMin ev rest best2 alpha beta2 sc.2

/-- `computer.minimax`, with the global cache threaded explicitly.  The first
three steps (cache lookup, no-pieces checks) do not depend on the depth, so
splitting on the depth first is behaviour-preserving and makes the recursion
structural. -/
def minimax : Nat → Board → Player → Bool → XInt → XInt → Cache →
    Int × List vec2 × Cache
  | 0, b, p, _, _, _, c =>
    match lookupCache c b.grid with
    | some s => (s, [], c)
    | none =>
      if (b.get_player_pieces p).isEmpty then (-1000 - 0, [], c)
      else if (b.get_player_pieces p.other).isEmpty then (1000 + 0, [], c)
      else (b.score p, [], insertCache c b.grid (b.score p))
  | d + 1, b, p, maximizing, alpha, beta, c =>
    match lookupCache c b.grid with
    | some s => (s, [], c)
    | none =>
      if (b.get_player_pieces p).isEmpty then (-1000 - ((d : Int) + 1), [], c)
      else if (b.get_player_pieces p.other).isEmpty then (1000 + ((d : Int) + 1), [], c)
      else
        if maximizing then
          searchMax (fun nb a2 b2 c2 =>
              let r := minimax d nb p false a2 b2 c2
              (r.1, r.2.2))
            (get_compound_moves b p) (-2000 + ((d : Int) + 1), []) alpha beta c
        else
          searchMin (fun nb a2 b2 c2 =>
              let r := minimax d nb p true a2 b2 c2
              (r.1, r.2.2))
            (get_compound_moves b p.other) (2000 - ((d : Int) + 1), []) alpha beta c

/-- The search part of `computer.run`: the global cache is reset to empty
before `minimax(board, player, depth)` is called with the default maximizing
flag and infinite alpha/beta window.  `hidden` is the global cache state left
over from any previous invocation; `run` discards it. -/
def run_search (b : Board) (p : Player) (d : Nat) (hidden : Cache) :
    (Int × List vec2) × Cache :=
  let _ := hidden
  let r := minimax d b p true XInt.negInf XInt.posInf []
  ((r.1, r.2.1), r.2.2)

/-- The default starting layout built by `Board.__init__` when no string is
given: every playable tile is set to `'.'`, then rows 0-2 to `'2'` and rows
5-7 to `'1'`, in tile iteration order. -/
def Board.initDefault : Board :=
  Board.Tiles.foldl (fun bd pos =>
    let bd := bd.set pos '.'
    if pos.y < 3 then bd.set pos '2'
    else if 5 ≤ pos.y then bd.set pos '1'
    else bd) ⟨List.replicate 64 ' '⟩

/-- `Board.__init__(string)`: a truthy (non-empty) string is stored verbatim
with no validation; `None` or the empty string builds the default layout. -/
def Board.init : Option (List Char) → Board
  | some s => if s.isEmpty then Board.initDefault else ⟨s⟩
  | none => Board.initDefault

/-- `env.MINIMUM_DEPTH` (default value). -/
def MINIMUM_DEPTH : Int := 7

/-- Failure of the depth-regression step (`scipy.optimize.curve_fit` raising,
or `math.log` on a degenerate factor). -/
inductive FitError where
  | fitFailed
  deriving DecidableEq

/-- The depth-update tail of `computer.run` (after `samples.append(...)`):
with at most one sample the fit is skipped and the previous depth kept;
otherwise `curve_fit` over the last five samples followed by
`int(math.log(TARGET_TIME, factor))` — abstracted as the fallible numeric
oracle `fit` — feeds `depth = max(MINIMUM_DEPTH, ...)`.  The source wraps this
in no `try`/`except`, so a failing fit propagates out of `run`
(`Except.error`). -/
def runDepthUpdate (fit : List (Nat × Nat) → Except FitError Int)
    (depth : Nat) (samples : List (Nat × Nat)) : Except FitError Nat :=
  if samples.length > 1 then
    match fit (samples.drop (samples.length - 5)) with
    | .error e => .error e
    | .ok v => .ok (max MINIMUM_DEPTH v).toNat
  else .ok depth

/-- The transposition-cache invariant: every entry stores exactly the depth-0
heuristic evaluation of its position for the searching player. -/
def CacheOK (p : Player) (c : Cache) : Prop :=
  ∀ e ∈ c, e.2 = Board.score ⟨e.1⟩ p

/-- Number of jump steps in a compound move: consecutive pairs at Chebyshev
distance 2 (simple steps have distance 1). -/
def captureSteps (cm : List vec2) : Nat :=
  (cm.zip cm.tail).countP (fun uv => uv.1.distance uv.2 == 2)

/-- Well-formedness of a position (spec sections 3 and 7): 64 cells, and every
non-playable cell carries the off-board marker. -/
def WellFormed (b : Board) : Prop :=
  b.grid.length = 64 ∧ ∀ pos ∈ Board.AllTiles, ¬Board.IsTile pos → b.cell pos = ' '

instance (b : Board) : Decidable (WellFormed b) := by
  unfold WellFormed
  infer_instance

/-- A regression-fit oracle that always fails, modelling a `curve_fit` or
`math.log` exception in the depth update of `run`. -/
def failingFit : List (Nat × Nat) → Except FitError Int :=
  fun _ => .error .fitFailed

/-- Position in which player one has exactly one legal compound move
(`(6,7) -> (7,6)`), after which the reply forced for player two leads to
player one being completely blocked; used to exercise the search. -/
def trapBoard : Board :=
  ⟨(" . . . ." ++ ". . . . " ++ " . . . ." ++ ". . . . " ++ " . 2 2 2"
    ++ ". . 2 2 " ++ " . . 1 ." ++ ". . . 1 ").toList⟩

/-- Position in which player one still has a piece at `(7,6)` but no legal
move at all, while player two has pieces. -/
def blockedBoard : Board :=
  ⟨(" . . . ." ++ ". . . . " ++ " . . . ." ++ ". . . . " ++ " . 2 2 2"
    ++ ". . . 2 " ++ " . . . 1" ++ ". . . b ").toList⟩

/-- Position in which player one's man at `(1,2)` must capture to `(3,0)`,
landing on its farthest row mid-capture while another geometric capture
(over `(4,1)` to `(5,2)`) would remain available to a king. -/
def promoBoard : Board :=
  ⟨(" . . . ." ++ ". 2 2 . " ++ " 1 . . ." ++ ". . . . " ++ " . . . ."
    ++ ". . . . " ++ " . . . ." ++ ". . . . ").toList⟩

/-- Position in which player one has no pieces at all. -/
def loneBoard : Board :=
  ⟨(" 2 . . ." ++ ". . . . " ++ " . . . ." ++ ". . . . " ++ " . . . ."
    ++ ". . . . " ++ " . . . ." ++ ". . . . ").toList⟩

/-! ### Basic lemmas about the data model -/

theorem vec2_add_x (a b : vec2) : (a + b).x = a.x + b.x := rfl

theorem vec2_add_y (a b : vec2) : (a + b).y = a.y + b.y := rfl

theorem vec2_sub_x (a b : vec2) : (a - b).x = a.x - b.x := rfl

theorem vec2_sub_y (a b : vec2) : (a - b).y = a.y - b.y := rfl

theorem vec2_eq_iff {a b : vec2} : a = b ↔ a.x = b.x ∧ a.y = b.y := by
  cases a
  cases b
  simp

theorem other_of_ne {q pl : Player} (h : q ≠ pl) : q = pl.other := by
  cases q <;> cases pl <;> simp_all [Player.other]

theorem pieceOwner_manChar (p : Player) : pieceOwner (manChar p) = some p := by
  cases p <;> rfl

theorem pieceOwner_kingChar (p : Player) : pieceOwner (kingChar p) = some p := by
  cases p <;> rfl

theorem isKingChar_manChar (p : Player) : isKingChar (manChar p) = false := by
  cases p <;> rfl

theorem isKingChar_kingChar (p : Player) : isKingChar (kingChar p) = true := by
  cases p <;> rfl

theorem pieceOwner_char {c : Char} {p : Player} (h : pieceOwner c = some p) :
    c = manChar p ∨ c = kingChar p := by
  unfold pieceOwner at h
  split_ifs at h with h1 h2
  · obtain rfl : Player.one = p := by injection h
    rcases h1 with rfl | rfl
    · exact Or.inl rfl
    · exact Or.inr rfl
  · obtain rfl : Player.two = p := by injection h
    rcases h2 with rfl | rfl
    · exact Or.inl rfl
    · exact Or.inr rfl

theorem man_of_owner {c : Char} {p : Player} (h : pieceOwner c = some p)
    (hk : isKingChar c = false) : c = manChar p := by
  rcases pieceOwner_char h with rfl | rfl
  · rfl
  · rw [isKingChar_kingChar] at hk
    cases hk

theorem owner_ne_blank {c : Char} {p : Player} (h : pieceOwner c = some p) :
    c ≠ ' ' := by
  intro he
  subst he
  simp [pieceOwner] at h

theorem owner_ne_dot {c : Char} {p : Player} (h : pieceOwner c = some p) :
    c ≠ '.' := by
  intro he
  subst he
  simp [pieceOwner] at h

/-! ### List and cell lemmas -/

theorem getD_set_self (l : List Char) (i : Nat) (c d : Char) (h : i < l.length) :
    (l.set i c).getD i d = c := by
  simp [List.getD, List.getElem?_set_self, h]

theorem getD_set_ne (l : List Char) (i j : Nat) (c d : Char) (h : i ≠ j) :
    (l.set i c).getD j d = l.getD j d := by
  simp [List.getD, List.getElem?_set_ne h]

theorem getD_eq_default (l : List Char) (i : Nat) (d : Char) (h : l.length ≤ i) :
    l.getD i d = d := by
  simp [List.getD, List.getElem?_eq_none h]

theorem countP_set (pr : Char → Bool) (l : List Char) (i : Nat) (c d : Char)
    (h : i < l.length) :
    (l.set i c).countP pr + (if pr (l.getD i d) then 1 else 0)
      = l.countP pr + (if pr c then 1 else 0) := by
  induction l generalizing i with
  | nil => simp at h
  | cons hd tl ih =>
    cases i with
    | zero =>
      simp only [List.set, List.countP_cons, List.getD_cons_zero]
      omega
    | succ n =>
      simp only [List.set, List.countP_cons, List.getD_cons_succ]
      have := ih n (by simpa using h)
      omega

theorem cell_ne_blank {b : Board} {pos : vec2} (h : b.cell pos ≠ ' ') :
    Board.IsInBoard pos ∧ Board.idx pos < b.grid.length := by
  by_cases hin : Board.IsInBoard pos
  · refine ⟨hin, ?_⟩
    by_contra hge
    push_neg at hge
    exact h (by simp [Board.cell, hin, List.getD, List.getElem?_eq_none hge])
  · exact absurd (by simp [Board.cell, hin]) h

theorem idx_inj {p q : vec2} (hp : Board.IsInBoard p) (hq : Board.IsInBoard q)
    (h : Board.idx p = Board.idx q) : p = q := by
  obtain ⟨ha1, ha2, ha3, ha4⟩ := hp
  obtain ⟨hb1, hb2, hb3, hb4⟩ := hq
  unfold Board.idx at h
  rw [vec2_eq_iff]
  omega

theorem grid_length_set (b : Board) (pos : vec2) (c : Char) :
    (b.set pos c).grid.length = b.grid.length :=
  List.length_set b.grid (Board.idx pos) c

theorem cell_set_self {b : Board} {pos : vec2} {c : Char}
    (hin : Board.IsInBoard pos) (hlen : Board.idx pos < b.grid.length) :
    (b.set pos c).cell pos = c := by
  simp [Board.cell, Board.set, hin, List.getD, List.getElem?_set_self hlen]

theorem cell_set_ne {b : Board} {pos q : vec2} {c : Char}
    (hin : Board.IsInBoard pos) (hne : q ≠ pos) :
    (b.set pos c).cell q = b.cell q := by
  by_cases hq : Board.IsInBoard q
  · have hidx : Board.idx pos ≠ Board.idx q := fun he => hne (idx_inj hq hin he.symm)
    simp [Board.cell, Board.set, hq, List.getD, List.getElem?_set_ne hidx]
  · simp [Board.cell, hq]

theorem countP_cell_set (b : Board) (pos : vec2) (c : Char) (pr : Char → Bool)
    (hin : Board.IsInBoard pos) (hlen : Board.idx pos < b.grid.length) :
    (b.set pos c).grid.countP pr + (if pr (b.cell pos) then 1 else 0)
      = b.grid.countP pr + (if pr c then 1 else 0) := by
  have h := countP_set pr b.grid (Board.idx pos) c ' ' hlen
  have hc : b.cell pos = b.grid.getD (Board.idx pos) ' ' := by
    unfold Board.cell
    rw [if_pos hin]
  rw [hc]
  exact h

theorem mem_AllTiles {v : vec2} : v ∈ Board.AllTiles ↔ Board.IsInBoard v := by
  unfold Board.IsInBoard Board.AllTiles
  constructor
  · intro h
    obtain ⟨y, hy, hv⟩ := List.mem_flatMap.1 h
    obtain ⟨x, hx, rfl⟩ := List.mem_map.1 hv
    rw [List.mem_range] at hy
    rw [List.mem_range] at hx
    show (0 : Int) ≤ (x : Int) ∧ (x : Int) < 8 ∧ (0 : Int) ≤ (y : Int) ∧ (y : Int) < 8
    omega
  · intro h
    obtain ⟨h1, h2, h3, h4⟩ := h
    refine List.mem_flatMap.2 ⟨v.y.toNat, List.mem_range.2 (by omega),
      List.mem_map.2 ⟨v.x.toNat, List.mem_range.2 (by omega), ?_⟩⟩
    rw [vec2_eq_iff]
    constructor
    · show ((v.x.toNat : Int)) = v.x
      omega
    · show ((v.y.toNat : Int)) = v.y
      omega

theorem mem_Tiles {v : vec2} : v ∈ Board.Tiles ↔ Board.IsTile v := by
  unfold Board.Tiles Board.IsTile
  rw [List.mem_filter, mem_AllTiles]
  simp [bne_iff_ne]

theorem mem_player_pieces {b : Board} {p : Player} {t : vec2} :
    t ∈ b.get_player_pieces p ↔ Board.IsTile t ∧ pieceOwner (b.cell t) = some p := by
  simp [Board.get_player_pieces, List.mem_filter, mem_Tiles]

/-! ### Shape of generated moves -/

theorem owner_inboard {b : Board} {pos : vec2} {pl : Player}
    (h : pieceOwner (b.cell pos) = some pl) :
    Board.IsInBoard pos ∧ Board.idx pos < b.grid.length :=
  cell_ne_blank (owner_ne_blank h)

theorem dot_inboard {b : Board} {pos : vec2} (h : b.cell pos = '.') :
    Board.IsInBoard pos ∧ Board.idx pos < b.grid.length :=
  cell_ne_blank (by rw [h]; decide)

theorem center_eq {a b m : vec2} (hx : a.x + b.x = 2 * m.x) (hy : a.y + b.y = 2 * m.y) :
    vec2.center a b = some m := by
  unfold vec2.center
  rw [if_neg (by push_neg; constructor <;> simp [vec2_add_x, vec2_add_y] <;> omega)]
  congr 1
  rw [vec2_eq_iff]
  constructor <;> simp [vec2_add_x, vec2_add_y] <;> omega

theorem center_none {a b : vec2}
    (h : (a.x + b.x) % 2 ≠ 0 ∨ (a.y + b.y) % 2 ≠ 0) :
    vec2.center a b = none := by
  unfold vec2.center
  rw [if_pos (by simpa [vec2_add_x, vec2_add_y] using h)]

theorem mem_AdjacentTiles {pos tile : vec2} :
    tile ∈ Board.AdjacentTiles pos ↔
      ∃ dir ∈ ([⟨1, 1⟩, ⟨1, -1⟩, ⟨-1, 1⟩, ⟨-1, -1⟩] : List vec2),
        tile = pos + dir ∧ Board.IsInBoard tile := by
  unfold Board.AdjacentTiles
  rw [List.mem_filterMap]
  constructor
  · rintro ⟨dir, hdir, hif⟩
    split_ifs at hif with hin
    · obtain rfl : pos + dir = tile := by injection hif
      exact ⟨dir, hdir, rfl, hin⟩
  · rintro ⟨dir, hdir, rfl, hin⟩
    exact ⟨dir, hdir, by rw [if_pos hin]⟩

theorem piece_moves_shape {b : Board} {pos mv : vec2} {cap : Bool}
    (h : (mv, cap) ∈ b.get_piece_moves pos) :
    ∃ pl dir, pieceOwner (b.cell pos) = some pl ∧
      dir ∈ ([⟨1, 1⟩, ⟨1, -1⟩, ⟨-1, 1⟩, ⟨-1, -1⟩] : List vec2) ∧
      Board.IsInBoard (pos + dir) ∧
      (isKingChar (b.cell pos) = true ∨ ((pos.y < (pos + dir).y) ↔ pl = Player.two)) ∧
      ((cap = false ∧ mv = pos + dir ∧ b.cell mv = '.') ∨
        (cap = true ∧ mv = pos + dir + dir ∧ b.cell mv = '.' ∧
          ∃ q, pieceOwner (b.cell (pos + dir)) = some q ∧ q ≠ pl)) := by
  unfold Board.get_piece_moves at h
  rcases hpl : pieceOwner (b.cell pos) with _ | pl
  · rw [hpl] at h
    cases h
  · rw [hpl] at h
    rw [List.mem_filterMap] at h
    obtain ⟨tile, htile, hf⟩ := h
    obtain ⟨dir, hdir, rfl, hin⟩ := mem_AdjacentTiles.1 htile
    refine ⟨pl, dir, rfl, hdir, hin, ?_, ?_⟩
    · by_cases hk : isKingChar (b.cell pos) = true
      · exact Or.inl hk
      · right
        rw [Bool.not_eq_true] at hk
        rw [hk, Bool.false_or] at hf
        by_cases hb : (decide (pos.y < (pos + dir).y) == decide (pl = Player.two)) = true
        · rw [beq_iff_eq, decide_eq_decide] at hb
          exact hb
        · rw [Bool.not_eq_true] at hb
          rw [hb] at hf
          simp at hf
    · by_cases hc : (isKingChar (b.cell pos)
          || (decide (pos.y < (pos + dir).y) == decide (pl = Player.two))) = true
      · rw [hc] at hf
        rw [if_pos rfl] at hf
        by_cases hdot : b.cell (pos + dir) = '.'
        · rw [if_pos hdot] at hf
          obtain ⟨h1, h2⟩ : pos + dir = mv ∧ false = cap := by
            constructor <;> injection hf with hf2 <;> injection hf2
          subst h1
          subst h2
          exact Or.inl ⟨rfl, rfl, hdot⟩
        · rw [if_neg hdot] at hf
          have hsub : pos + dir + (pos + dir - pos) = pos + dir + dir := by
            rw [vec2_eq_iff]
            constructor <;> simp [vec2_add_x, vec2_add_y, vec2_sub_x, vec2_sub_y]
          split at hf
          · rename_i q hq
            split_ifs at hf with hcap
            obtain ⟨h1, h2⟩ : pos + dir + (pos + dir - pos) = mv ∧ true = cap := by
              constructor <;> injection hf with hf2 <;> injection hf2
            subst h2
            rw [hsub] at h1
            subst h1
            rw [hsub] at hcap
            exact Or.inr ⟨rfl, rfl, hcap.2, q, hq, hcap.1⟩
          · rename_i hq
            cases hf
      · rw [Bool.not_eq_true] at hc
        rw [hc] at hf
        simp at hf

theorem vec2_mk_x (a b : Int) : (vec2.mk a b).x = a := rfl

theorem vec2_mk_y (a b : Int) : (vec2.mk a b).y = b := rfl

theorem man_capture_dy {b : Board} {pos mv : vec2} {p : Player}
    (h : (mv, true) ∈ b.get_piece_moves pos) (ho : b.cell pos = manChar p) :
    mv.y = pos.y + (if p = Player.two then 2 else -2) := by
  obtain ⟨pl, dir, hpl, hdir, hin, hcond, hcase⟩ := piece_moves_shape h
  rw [ho, pieceOwner_manChar] at hpl
  obtain rfl : p = pl := by injection hpl
  rcases hcond with hk | hiff
  · rw [ho, isKingChar_manChar] at hk
    cases hk
  · rcases hcase with ⟨hc, _, _⟩ | ⟨_, rfl, _, _⟩
    · cases hc
    · fin_cases hdir <;> simp only [vec2_add_y, vec2_mk_y] at hiff ⊢
      · have hp2 : p = Player.two := hiff.1 (by omega)
        rw [if_pos hp2]
        omega
      · have hp2 : p ≠ Player.two := by
          intro hp
          have := hiff.2 hp
          omega
        rw [if_neg hp2]
        omega
      · have hp2 : p = Player.two := hiff.1 (by omega)
        rw [if_pos hp2]
        omega
      · have hp2 : p ≠ Player.two := by
          intro hp
          have := hiff.2 hp
          omega
        rw [if_neg hp2]
        omega

theorem man_far_no_moves {b : Board} {pos : vec2} {p : Player}
    (ho : b.cell pos = manChar p)
    (hfar : (p = Player.one ∧ pos.y = 0) ∨ (p = Player.two ∧ pos.y = 7)) :
    b.get_piece_moves pos = [] := by
  unfold Board.get_piece_moves
  rw [ho, pieceOwner_manChar]
  rw [List.filterMap_eq_nil_iff]
  intro tile htile
  obtain ⟨dir, hdir, rfl, hin⟩ := mem_AdjacentTiles.1 htile
  obtain ⟨hi1, hi2, hi3, hi4⟩ := hin
  rw [isKingChar_manChar, Bool.false_or]
  have hcond : ¬((decide (pos.y < (pos + dir).y) == decide (p = Player.two)) = true) := by
    rw [beq_iff_eq, decide_eq_decide]
    rcases hfar with ⟨rfl, hy⟩ | ⟨rfl, hy⟩
    · intro hiff
      have hA : pos.y < (pos + dir).y := by
        fin_cases hdir <;> simp only [vec2_add_y, vec2_mk_y] at hi3 hi4 ⊢ <;> omega
      exact absurd (hiff.1 hA) (by decide)
    · intro hiff
      have hA : ¬(pos.y < (pos + dir).y) := by
        fin_cases hdir <;> simp only [vec2_add_y, vec2_mk_y] at hi3 hi4 ⊢ <;> omega
      exact hA (hiff.2 rfl)
  rw [if_neg hcond]

theorem capture_shape {b : Board} {pos mv : vec2}
    (h : (mv, true) ∈ b.get_piece_moves pos) :
    ∃ pl mid, pieceOwner (b.cell pos) = some pl ∧
      vec2.center pos mv = some mid ∧
      pieceOwner (b.cell mid) = some pl.other ∧
      b.cell mv = '.' ∧
      vec2.distance pos mv = 2 ∧
      pos ≠ mv ∧ pos ≠ mid ∧ mid ≠ mv := by
  obtain ⟨pl, dir, hpl, hdir, hin, _, hcase⟩ := piece_moves_shape h
  rcases hcase with ⟨hc, _, _⟩ | ⟨_, rfl, hdot, q, hq, hqne⟩
  · cases hc
  · have hdx : dir.x = 1 ∨ dir.x = -1 := by
      fin_cases hdir <;> simp [vec2_mk_x]
    have hdy : dir.y = 1 ∨ dir.y = -1 := by
      fin_cases hdir <;> simp [vec2_mk_y]
    refine ⟨pl, pos + dir, hpl, ?_, ?_, hdot, ?_, ?_, ?_, ?_⟩
    · apply center_eq <;> simp [vec2_add_x, vec2_add_y] <;> ring
    · rw [other_of_ne hqne] at hq
      exact hq
    · unfold vec2.distance
      rcases hdx with h1 | h1 <;> rcases hdy with h2 | h2 <;>
        simp [vec2_add_x, vec2_add_y, h1, h2] <;> omega
    · rw [Ne, vec2_eq_iff]
      rintro ⟨he1, -⟩
      simp only [vec2_add_x] at he1
      rcases hdx with h1 | h1 <;> rw [h1] at he1 <;> omega
    · rw [Ne, vec2_eq_iff]
      rintro ⟨he1, -⟩
      simp only [vec2_add_x] at he1
      rcases hdx with h1 | h1 <;> rw [h1] at he1 <;> omega
    · rw [Ne, vec2_eq_iff]
      rintro ⟨he1, -⟩
      simp only [vec2_add_x] at he1
      rcases hdx with h1 | h1 <;> rw [h1] at he1 <;> omega

/-! ### Effect of `Board.move` on cells and counts -/

theorem ite_false_nat : (if (false = true) then (1 : Nat) else 0) = 0 := rfl

theorem capture_move_cells {b : Board} {pos mv : vec2}
    (h : (mv, true) ∈ b.get_piece_moves pos) :
    ∃ pl mid, pieceOwner (b.cell pos) = some pl ∧
      vec2.center pos mv = some mid ∧
      pieceOwner (b.cell mid) = some pl.other ∧
      vec2.distance pos mv = 2 ∧
      (b.move pos mv).cell mv = b.cell pos ∧
      (b.move pos mv).cell pos = '.' ∧
      (b.move pos mv).cell mid = '.' ∧
      (b.move pos mv).grid.length = b.grid.length ∧
      (∀ u, u ≠ pos → u ≠ mv → u ≠ mid → (b.move pos mv).cell u = b.cell u) ∧
      (∀ pr : Char → Bool, pr '.' = false →
        (b.move pos mv).grid.countP pr + (if pr (b.cell mid) then 1 else 0)
          = b.grid.countP pr) := by
  obtain ⟨pl, mid, hpl, hcen, hmid, hdot, hdist, hne1, hne2, hne3⟩ := capture_shape h
  obtain ⟨hinP, hlenP⟩ := owner_inboard hpl
  obtain ⟨hinM, hlenM⟩ := owner_inboard hmid
  obtain ⟨hinV, hlenV⟩ := dot_inboard hdot
  have hmove : b.move pos mv = ((b.set mv (b.cell pos)).set pos '.').set mid '.' := by
    unfold Board.move
    rw [if_pos (by rw [hpl]; rfl), hcen]
  have hL1 : (b.set mv (b.cell pos)).grid.length = b.grid.length :=
    grid_length_set b mv (b.cell pos)
  have hL2 : ((b.set mv (b.cell pos)).set pos '.').grid.length = b.grid.length := by
    rw [grid_length_set, hL1]
  have hcellv : (b.move pos mv).cell mv = b.cell pos := by
    rw [hmove, cell_set_ne hinM hne3.symm, cell_set_ne hinP (Ne.symm hne1),
      cell_set_self hinV hlenV]
  have hcellp : (b.move pos mv).cell pos = '.' := by
    rw [hmove, cell_set_ne hinM hne2, cell_set_self hinP (by rw [hL1]; exact hlenP)]
  have hcellm : (b.move pos mv).cell mid = '.' := by
    rw [hmove, cell_set_self hinM (by rw [hL2]; exact hlenM)]
  have hlen : (b.move pos mv).grid.length = b.grid.length := by
    rw [hmove, grid_length_set, hL2]
  refine ⟨pl, mid, hpl, hcen, hmid, hdist, hcellv, hcellp, hcellm, hlen, ?_, ?_⟩
  · intro u hu1 hu2 hu3
    rw [hmove, cell_set_ne hinM hu3, cell_set_ne hinP hu1, cell_set_ne hinV hu2]
  · intro pr hpr
    have hc1 := countP_cell_set b mv (b.cell pos) pr hinV hlenV
    have hc2 := countP_cell_set (b.set mv (b.cell pos)) pos '.' pr hinP
      (by rw [hL1]; exact hlenP)
    have hc3 := countP_cell_set ((b.set mv (b.cell pos)).set pos '.') mid '.' pr hinM
      (by rw [hL2]; exact hlenM)
    rw [cell_set_ne hinV hne1] at hc2
    rw [cell_set_ne hinP (Ne.symm hne2), cell_set_ne hinV hne3] at hc3
    rw [hmove]
    rw [hdot, hpr] at hc1
    rw [hpr] at hc2 hc3
    rw [ite_false_nat] at hc1 hc2 hc3
    omega

theorem noncapture_move_cells {b : Board} {pos mv : vec2}
    (h : (mv, false) ∈ b.get_piece_moves pos) :
    ∃ pl, pieceOwner (b.cell pos) = some pl ∧
      vec2.distance pos mv = 1 ∧
      vec2.center pos mv = none ∧
      b.cell mv = '.' ∧
      pos ≠ mv ∧
      (b.move pos mv).cell mv = b.cell pos ∧
      (b.move pos mv).cell pos = '.' ∧
      (b.move pos mv).grid.length = b.grid.length ∧
      (∀ u, u ≠ pos → u ≠ mv → (b.move pos mv).cell u = b.cell u) ∧
      (∀ pr : Char → Bool, pr '.' = false →
        (b.move pos mv).grid.countP pr = b.grid.countP pr) := by
  obtain ⟨pl, dir, hpl, hdir, hin, _, hcase⟩ := piece_moves_shape h
  rcases hcase with ⟨_, rfl, hdot⟩ | ⟨hc, _, _⟩
  swap
  · cases hc
  have hdx : dir.x = 1 ∨ dir.x = -1 := by
    fin_cases hdir <;> simp [vec2_mk_x]
  have hdy : dir.y = 1 ∨ dir.y = -1 := by
    fin_cases hdir <;> simp [vec2_mk_y]
  have hdist : vec2.distance pos (pos + dir) = 1 := by
    unfold vec2.distance
    rcases hdx with h1 | h1 <;> rcases hdy with h2 | h2 <;>
      simp [vec2_add_x, vec2_add_y, h1, h2]
  have hne1 : pos ≠ pos + dir := by
    rw [Ne, vec2_eq_iff]
    rintro ⟨he1, -⟩
    simp only [vec2_add_x] at he1
    rcases hdx with h1 | h1 <;> rw [h1] at he1 <;> omega
  have hcen : vec2.center pos (pos + dir) = none := by
    apply center_none
    left
    simp only [vec2_add_x]
    rcases hdx with h1 | h1 <;> rw [h1] <;> omega
  obtain ⟨hinP, hlenP⟩ := owner_inboard hpl
  obtain ⟨hinV, hlenV⟩ := dot_inboard hdot
  have hmove : b.move pos (pos + dir) = (b.set (pos + dir) (b.cell pos)).set pos '.' := by
    unfold Board.move
    rw [if_pos (by rw [hpl]; rfl), hcen]
  have hL1 : (b.set (pos + dir) (b.cell pos)).grid.length = b.grid.length :=
    grid_length_set b (pos + dir) (b.cell pos)
  refine ⟨pl, hpl, hdist, hcen, hdot, hne1, ?_, ?_, ?_, ?_, ?_⟩
  · rw [hmove, cell_set_ne hinP (Ne.symm hne1), cell_set_self hinV hlenV]
  · rw [hmove, cell_set_self hinP (by rw [hL1]; exact hlenP)]
  · rw [hmove, grid_length_set, hL1]
  · intro u hu1 hu2
    rw [hmove, cell_set_ne hinP hu1, cell_set_ne hinV hu2]
  · intro pr hpr
    have hc1 := countP_cell_set b (pos + dir) (b.cell pos) pr hinV hlenV
    have hc2 := countP_cell_set (b.set (pos + dir) (b.cell pos)) pos '.' pr hinP
      (by rw [hL1]; exact hlenP)
    rw [cell_set_ne hinV hne1] at hc2
    rw [hmove]
    rw [hdot, hpr] at hc1
    rw [hpr] at hc2
    rw [ite_false_nat] at hc1 hc2
    omega

/-! ### Characterisation of side-level move generation -/

theorem mem_capsOf {b : Board} {t d : vec2} :
    d ∈ capsOf b t ↔ (d, true) ∈ b.get_piece_moves t := by
  unfold capsOf
  rw [List.mem_map]
  constructor
  · rintro ⟨⟨d2, c⟩, hm, rfl⟩
    rw [List.mem_filter] at hm
    have hc : c = true := by simpa using hm.2
    subst hc
    exact hm.1
  · intro hm
    exact ⟨(d, true), List.mem_filter.2 ⟨hm, rfl⟩, rfl⟩

theorem mem_allOf {b : Board} {t d : vec2} :
    d ∈ allOf b t ↔ ∃ c, (d, c) ∈ b.get_piece_moves t := by
  unfold allOf
  rw [List.mem_map]
  constructor
  · rintro ⟨⟨d2, c⟩, hm, rfl⟩
    exact ⟨c, hm⟩
  · rintro ⟨c, hm⟩
    exact ⟨(d, c), hm, rfl⟩

theorem get_moves_eq (b : Board) (p : Player) (locked : Option vec2) :
    (get_moves b p locked
        = (true, (tilesFor b p locked).filterMap (fun t =>
            if (capsOf b t).isEmpty then none else some (t, capsOf b t)))
      ∧ ∃ t ∈ tilesFor b p locked, capsOf b t ≠ [])
    ∨ ((∀ t ∈ tilesFor b p locked, capsOf b t = [])
      ∧ get_moves b p locked
          = (false, if locked.isSome then [] else
              (tilesFor b p locked).filterMap (fun t =>
                if (allOf b t).isEmpty then none else some (t, allOf b t)))) := by
  simp only [get_moves]
  by_cases hemp : ((tilesFor b p locked).filterMap (fun t =>
      if (capsOf b t).isEmpty then none else some (t, capsOf b t))).isEmpty = true
  · rw [if_pos hemp]
    right
    refine ⟨?_, rfl⟩
    rw [List.isEmpty_iff, List.filterMap_eq_nil_iff] at hemp
    intro t ht
    have h2 := hemp t ht
    by_cases hc : (capsOf b t).isEmpty = true
    · rwa [List.isEmpty_iff] at hc
    · rw [if_neg hc] at h2
      cases h2
  · rw [if_neg hemp]
    left
    refine ⟨rfl, ?_⟩
    rw [List.isEmpty_iff] at hemp
    rcases List.exists_mem_of_ne_nil _ hemp with ⟨x, hx⟩
    rw [List.mem_filterMap] at hx
    obtain ⟨t, ht, hf⟩ := hx
    by_cases hc : (capsOf b t).isEmpty = true
    · rw [if_pos hc] at hf
      cases hf
    · rw [List.isEmpty_iff] at hc
      exact ⟨t, ht, hc⟩

theorem get_moves_flag_iff {b : Board} {p : Player} {locked : Option vec2} :
    (get_moves b p locked).1 = true ↔
      ∃ t ∈ tilesFor b p locked, ∃ d, (d, true) ∈ b.get_piece_moves t := by
  rcases get_moves_eq b p locked with ⟨heq, t, ht, hne⟩ | ⟨hall, heq⟩
  · rw [heq]
    constructor
    · intro _
      rcases List.exists_mem_of_ne_nil _ hne with ⟨d, hd⟩
      exact ⟨t, ht, d, mem_capsOf.1 hd⟩
    · intro _
      rfl
  · rw [heq]
    constructor
    · intro hf
      cases hf
    · rintro ⟨t, ht, d, hd⟩
      have hc := hall t ht
      have hmem : d ∈ capsOf b t := mem_capsOf.2 hd
      rw [hc] at hmem
      cases hmem

theorem get_moves_true_mem {b : Board} {p : Player} {locked : Option vec2}
    {t : vec2} {ds : List vec2}
    (hmem : (t, ds) ∈ (get_moves b p locked).2)
    (hflag : (get_moves b p locked).1 = true) :
    t ∈ tilesFor b p locked ∧ ds = capsOf b t ∧ ds ≠ [] ∧
      ∀ d ∈ ds, (d, true) ∈ b.get_piece_moves t := by
  rcases get_moves_eq b p locked with ⟨heq, -⟩ | ⟨-, heq⟩
  · rw [heq] at hmem
    rw [List.mem_filterMap] at hmem
    obtain ⟨t2, ht2, hf⟩ := hmem
    by_cases hc : (capsOf b t2).isEmpty = true
    · rw [if_pos hc] at hf
      cases hf
    · rw [if_neg hc] at hf
      obtain ⟨h1, h2⟩ : t2 = t ∧ capsOf b t2 = ds := by
        constructor <;> injection hf with hf2 <;> injection hf2
      subst h1
      subst h2
      rw [List.isEmpty_iff] at hc
      exact ⟨ht2, rfl, hc, fun d hd => mem_capsOf.1 hd⟩
  · rw [heq] at hflag
    cases hflag

theorem get_moves_false_mem {b : Board} {p : Player} {locked : Option vec2}
    {t : vec2} {ds : List vec2}
    (hmem : (t, ds) ∈ (get_moves b p locked).2)
    (hflag : (get_moves b p locked).1 = false) :
    t ∈ tilesFor b p locked ∧ ds = allOf b t ∧ ds ≠ [] ∧
      ∀ d ∈ ds, (d, false) ∈ b.get_piece_moves t := by
  rcases get_moves_eq b p locked with ⟨heq, -⟩ | ⟨hall, heq⟩
  · rw [heq] at hflag
    cases hflag
  · rw [heq] at hmem
    by_cases hsome : locked.isSome = true
    · rw [if_pos hsome] at hmem
      cases hmem
    · rw [if_neg hsome] at hmem
      rw [List.mem_filterMap] at hmem
      obtain ⟨t2, ht2, hf⟩ := hmem
      by_cases hc : (allOf b t2).isEmpty = true
      · rw [if_pos hc] at hf
        cases hf
      · rw [if_neg hc] at hf
        obtain ⟨h1, h2⟩ : t2 = t ∧ allOf b t2 = ds := by
          constructor <;> injection hf with hf2 <;> injection hf2
        subst h1
        subst h2
        rw [List.isEmpty_iff] at hc
        refine ⟨ht2, rfl, hc, ?_⟩
        intro d hd
        obtain ⟨c, hdc⟩ := mem_allOf.1 hd
        cases c with
        | false => exact hdc
        | true =>
          have hmemc : d ∈ capsOf b t2 := mem_capsOf.2 hdc
          rw [hall t2 ht2] at hmemc
          cases hmemc

theorem get_moves_false_complete {b : Board} {p : Player} {t d : vec2} {c : Bool}
    (hflag : (get_moves b p none).1 = false)
    (ht : t ∈ b.get_player_pieces p)
    (hd : (d, c) ∈ b.get_piece_moves t) :
    ∃ ds, (t, ds) ∈ (get_moves b p none).2 ∧ d ∈ ds := by
  rcases get_moves_eq b p none with ⟨heq, -⟩ | ⟨hall, heq⟩
  · rw [heq] at hflag
    cases hflag
  · rw [heq]
    have hmem : d ∈ allOf b t := mem_allOf.2 ⟨c, hd⟩
    have hne : (allOf b t).isEmpty ≠ true := by
      intro he
      rw [List.isEmpty_iff] at he
      rw [he] at hmem
      cases hmem
    refine ⟨allOf b t, ?_, hmem⟩
    simp only [Option.isSome_none, Bool.false_eq_true, if_false]
    rw [List.mem_filterMap]
    exact ⟨t, ht, by rw [if_neg hne]⟩

theorem get_moves_locked_caps {b : Board} {p : Player} {l : vec2}
    (h : (get_moves b p (some l)).1 = true) :
    (get_moves b p (some l)).2 = [(l, capsOf b l)] ∧ capsOf b l ≠ [] := by
  rcases get_moves_eq b p (some l) with ⟨heq, t, ht, hne⟩ | ⟨-, heq⟩
  · have ht2 : t = l := by simpa [tilesFor] using ht
    subst ht2
    rw [heq]
    have hce : (capsOf b t).isEmpty ≠ true := by
      intro he
      rw [List.isEmpty_iff] at he
      exact hne he
    constructor
    · show List.filterMap (fun t2 =>
          if (capsOf b t2).isEmpty then none else some (t2, capsOf b t2)) [t]
        = [(t, capsOf b t)]
      simp only [List.filterMap_cons, List.filterMap_nil, if_neg hce]
    · exact hne
  · rw [heq] at h
    cases h

theorem get_moves_locked_nocaps {b : Board} {p : Player} {l : vec2}
    (h : capsOf b l = []) : get_moves b p (some l) = (false, []) := by
  rcases get_moves_eq b p (some l) with ⟨-, t, ht, hne⟩ | ⟨-, heq⟩
  · have ht2 : t = l := by simpa [tilesFor] using ht
    subst ht2
    exact absurd h hne
  · rw [heq]
    rfl

/-! ### Compound-move chains -/

theorem other_ne (p : Player) : p.other ≠ p := by
  cases p <;> decide

theorem last2_pair (a m : vec2) : last2 [a, m] = (a, m) := rfl

theorem last2_append (cm : List vec2) (mv : vec2) (h : cm ≠ []) :
    last2 (cm ++ [mv]) = ((last2 cm).2, mv) := by
  have hra : (cm ++ [mv]).reverse = mv :: cm.reverse := by simp
  unfold last2
  rw [hra]
  rcases hrev : cm.reverse with _ | ⟨hd, tl⟩
  · have hnil : cm = [] := by simpa using congrArg List.reverse hrev
    exact absurd hnil h
  · cases tl <;> rfl

theorem gsm_chain : ∀ (fuel : Nat) (b : Board) (p : Player) (cm : List vec2)
    (a m : vec2) (pc : Char),
    cm ≠ [] →
    last2 cm = (a, m) →
    b.cell a = pc →
    pieceOwner pc = some p →
    (m, true) ∈ b.get_piece_moves a →
    ∀ x ∈ get_subsequent_moves fuel b p cm,
      ∃ ext : List vec2,
        x.1 = cm ++ ext ∧
        countFor x.2 p.other + (ext.length + 1) = countFor b p.other ∧
        List.Chain' (fun u v => vec2.distance u v = 2) (a :: m :: ext) ∧
        (isKingChar pc = false → ∀ v ∈ (m :: ext).dropLast, v.y ≠ 0 ∧ v.y ≠ 7) ∧
        x.2.cell ((m :: ext).getLastD m)
          = (if (((m :: ext).getLastD m).y = 0 ∨ (((m :: ext).getLastD m).y = 7))
                ∧ isKingChar pc = false then kingChar p else pc) := by
  intro fuel
  induction fuel with
  | zero =>
    intro b p cm a m pc _ _ _ _ _ x hx
    cases hx
  | succ fuel ih =>
    intro b p cm a m pc hcm hlast hca hown hcap x hx
    simp only [get_subsequent_moves, hlast] at hx
    obtain ⟨pl, mid, hpl, hcen, hmid, hdist, hcv, hcp, hcm2, hlen, hframe, hcount⟩ :=
      capture_move_cells hcap
    rw [hca] at hpl
    rw [hown] at hpl
    injection hpl with hplp
    rw [← hplp] at hmid
    have hb1m : (b.move a m).cell m = pc := by rw [hcv, hca]
    rw [hb1m] at hx
    have hprdot : (fun c => pieceOwner c == some p.other) '.' = false := by
      cases p <;> rfl
    have hcnt1 : countFor (b.move a m) p.other + 1 = countFor b p.other := by
      have hh := hcount (fun c => pieceOwner c == some p.other) hprdot
      simp only [] at hh
      simp only [hmid] at hh
      simp at hh
      unfold countFor
      omega
    obtain ⟨pl2, mid2, _, hcen2, _, hdotm, _, _, _, _⟩ := capture_shape hcap
    obtain ⟨hinM, hlenM⟩ := dot_inboard hdotm
    have hlenM2 : Board.idx m < (b.move a m).grid.length := by
      rw [hlen]
      exact hlenM
    obtain ⟨hinA, hlenA⟩ := owner_inboard (show pieceOwner (b.cell a) = some p by
      rw [hca]; exact hown)
    split at hx
    · -- the locked piece can capture again: recurse
      rename_i hflag
      obtain ⟨hres, hcne⟩ := get_moves_locked_caps hflag
      split at hx
      · cases hx
      · rename_i t0 mvs rest heq
        rw [hres] at heq
        obtain ⟨h1, h2⟩ : (m = t0 ∧ capsOf (b.move a m) m = mvs) ∧ [] = rest := by
          constructor
          · constructor <;> injection heq with he1 he2 <;> injection he1
          · injection heq
        obtain ⟨rfl, rfl⟩ := h1
        rw [List.mem_flatMap] at hx
        obtain ⟨mv, hmv, hx2⟩ := hx
        have hmvcap : (mv, true) ∈ (b.move a m).get_piece_moves m := mem_capsOf.1 hmv
        have happ : last2 (cm ++ [mv]) = (m, mv) := by
          rw [last2_append cm mv hcm, hlast]
        obtain ⟨ext2, hx1, hcnt2, hchain2, hint2, hlastc2⟩ :=
          ih (b.move a m) p (cm ++ [mv]) m mv pc (by simp) happ hb1m hown hmvcap x hx2
        refine ⟨mv :: ext2, ?_, ?_, ?_, ?_, ?_⟩
        · rw [hx1, List.append_assoc]
          rfl
        · rw [List.length_cons]
          omega
        · rw [List.chain'_cons]
          exact ⟨hdist, hchain2⟩
        · intro hman v hv
          have hmanchar : pc = manChar p := man_of_owner hown hman
          have hdrop : (m :: mv :: ext2).dropLast = m :: (mv :: ext2).dropLast := rfl
          rw [hdrop] at hv
          rcases List.mem_cons.1 hv with rfl | hv2
          · -- the intermediate landing square m is never on a far row
            have hdy := man_capture_dy hcap (by rw [hca, hmanchar])
            have hfar : ¬((p = Player.one ∧ v.y = 0) ∨ (p = Player.two ∧ v.y = 7)) := by
              intro hfar
              rw [man_far_no_moves (by rw [hb1m, hmanchar]) hfar] at hmvcap
              cases hmvcap
            obtain ⟨-, -, hay0, hay⟩ := hinA
            cases p with
            | one =>
              rw [if_neg (by decide)] at hdy
              constructor
              · intro h0
                exact hfar (Or.inl ⟨rfl, h0⟩)
              · omega
            | two =>
              rw [if_pos rfl] at hdy
              constructor
              · omega
              · intro h7
                exact hfar (Or.inr ⟨rfl, h7⟩)
          · exact hint2 hman v hv2
        · have hg1 : (m :: mv :: ext2).getLastD m = (mv :: ext2).getLastD m := by
            rw [List.getLastD_cons]
          have hg2 : (mv :: ext2).getLastD m = (mv :: ext2).getLastD mv := by
            rw [List.getLastD_cons, List.getLastD_cons]
          rw [hg1, hg2]
          exact hlastc2
    · -- no further capture: promotion check, then yield
      rename_i hflag
      rw [List.mem_singleton] at hx
      subst hx
      refine ⟨[], by simp, ?_, ?_, ?_, ?_⟩
      · -- piece counts: the optional promotion does not change them
        show countFor (if (m.y = 0 ∨ m.y = 7) ∧ isKingChar pc = false
            then (b.move a m).set m (kingChar p) else b.move a m) p.other + (0 + 1)
          = countFor b p.other
        split_ifs with hpromo
        · have hh := countP_cell_set (b.move a m) m (kingChar p)
            (fun c => pieceOwner c == some p.other) hinM hlenM2
          simp only [] at hh
          rw [hb1m] at hh
          have h1 : ((pieceOwner pc == some p.other) : Bool) = false := by
            rw [hown]
            cases p <;> rfl
          have h2 : ((pieceOwner (kingChar p) == some p.other) : Bool) = false := by
            rw [pieceOwner_kingChar]
            cases p <;> rfl
          simp only [h1, h2] at hh
          simp at hh
          unfold countFor at hcnt1 ⊢
          omega
        · unfold countFor at hcnt1 ⊢
          omega
      · rw [List.chain'_cons]
        exact ⟨hdist, List.chain'_singleton m⟩
      · intro _ v hv
        cases hv
      · have hg : ([] : List vec2) ≠ [] → True := fun _ => trivial
        show (if (m.y = 0 ∨ m.y = 7) ∧ isKingChar pc = false
            then (b.move a m).set m (kingChar p) else b.move a m).cell ((m :: []).getLastD m)
          = _
        have hgl : (m :: []).getLastD m = m := rfl
        rw [hgl]
        split_ifs with hpromo
        · rw [cell_set_self hinM hlenM2]
        · exact hb1m

theorem capture_pieceCount {b : Board} {pos mv : vec2}
    (h : (mv, true) ∈ b.get_piece_moves pos) :
    pieceCount (b.move pos mv) + 1 = pieceCount b := by
  obtain ⟨pl, mid, hpl, hcen, hmid, hdist, hcv, hcp, hcm2, hlen, hframe, hcount⟩ :=
    capture_move_cells h
  have hh := hcount (fun c => (pieceOwner c).isSome) (by rfl)
  simp only [] at hh
  simp only [hmid] at hh
  simp at hh
  unfold pieceCount
  omega

theorem flatMap_congr_mem {α β : Type} {l : List α} {f g : α → List β}
    (h : ∀ x ∈ l, f x = g x) : l.flatMap f = l.flatMap g := by
  induction l with
  | nil => rfl
  | cons hd tl ih =>
    rw [List.flatMap_cons, List.flatMap_cons, h hd (by simp),
      ih (fun x hx => h x (by simp [hx]))]

theorem gsm_irrel : ∀ (f1 f2 : Nat) (b : Board) (p : Player) (cm : List vec2)
    (a m : vec2),
    cm ≠ [] →
    last2 cm = (a, m) →
    (m, true) ∈ b.get_piece_moves a →
    pieceCount (b.move a m) + 1 ≤ f1 →
    pieceCount (b.move a m) + 1 ≤ f2 →
    get_subsequent_moves f1 b p cm = get_subsequent_moves f2 b p cm := by
  intro f1
  induction f1 with
  | zero =>
    intro f2 b p cm a m _ _ _ h1 _
    omega
  | succ f1 ih =>
    intro f2 b p cm a m hcm hlast hcap h1 h2
    cases f2 with
    | zero => omega
    | succ f2 =>
      simp only [get_subsequent_moves, hlast]
      split_ifs with hflag
      · obtain ⟨hres, hcne⟩ := get_moves_locked_caps hflag
        simp only [hres]
        apply flatMap_congr_mem
        intro mv hmv
        have hmvcap : (mv, true) ∈ (b.move a m).get_piece_moves m := mem_capsOf.1 hmv
        have happ : last2 (cm ++ [mv]) = (m, mv) := by
          rw [last2_append cm mv hcm, hlast]
        have hdec := capture_pieceCount hmvcap
        have hdec0 := capture_pieceCount hcap
        exact ih f2 (b.move a m) p (cm ++ [mv]) m mv (by simp) happ hmvcap
          (by omega) (by omega)
      · rfl
      · rfl

theorem gcmF_stable {b : Board} {p : Player} {f : Nat} (hf : pieceCount b ≤ f) :
    get_compound_movesF f b p = get_compound_moves b p := by
  unfold get_compound_moves get_compound_movesF
  apply flatMap_congr_mem
  intro pm hpm
  apply flatMap_congr_mem
  intro mv hmv
  split_ifs with hflag
  · obtain ⟨-, -, -, hall2⟩ := get_moves_true_mem (show (pm.1, pm.2) ∈ _ from hpm) hflag
    have hcapmv : (mv, true) ∈ b.get_piece_moves pm.1 := hall2 mv hmv
    have hdec := capture_pieceCount hcapmv
    exact gsm_irrel f (pieceCount b) b p [pm.1, mv] pm.1 mv (by simp)
      (last2_pair pm.1 mv) hcapmv (by omega) (by omega)
  · rfl

theorem gcm_mem {b : Board} {p : Player} {x : List vec2 × Board}
    (hx : x ∈ get_compound_moves b p) :
    ∃ t mv, pieceOwner (b.cell t) = some p ∧
      ((∃ ext, x.1 = t :: mv :: ext ∧
          countFor x.2 p.other + (ext.length + 1) = countFor b p.other ∧
          List.Chain' (fun u v => vec2.distance u v = 2) (t :: mv :: ext) ∧
          (isKingChar (b.cell t) = false →
            ∀ v ∈ (mv :: ext).dropLast, v.y ≠ 0 ∧ v.y ≠ 7) ∧
          x.2.cell ((mv :: ext).getLastD mv)
            = (if (((mv :: ext).getLastD mv).y = 0 ∨ ((mv :: ext).getLastD mv).y = 7)
                  ∧ isKingChar (b.cell t) = false then kingChar p else b.cell t))
        ∨ (x.1 = [t, mv] ∧
          countFor x.2 p.other = countFor b p.other ∧
          vec2.distance t mv = 1 ∧
          x.2.cell mv
            = (if ((mv.y = 0 ∨ mv.y = 7) ∧ isKingChar (b.cell t) = false)
                then kingChar p else b.cell t))) := by
  unfold get_compound_moves get_compound_movesF at hx
  rw [List.mem_flatMap] at hx
  obtain ⟨pm, hpm, hx⟩ := hx
  rw [List.mem_flatMap] at hx
  obtain ⟨mv, hmv, hx⟩ := hx
  by_cases hflag : (get_moves b p none).1 = true
  · rw [if_pos hflag] at hx
    obtain ⟨hmem, -, -, hall2⟩ :=
      get_moves_true_mem (show (pm.1, pm.2) ∈ _ from hpm) hflag
    have ht : pm.1 ∈ b.get_player_pieces p := by simpa [tilesFor] using hmem
    have hown : pieceOwner (b.cell pm.1) = some p := (mem_player_pieces.1 ht).2
    have hcap : (mv, true) ∈ b.get_piece_moves pm.1 := hall2 mv hmv
    obtain ⟨ext, hx1, hcnt, hchain, hint, hlastc⟩ :=
      gsm_chain (pieceCount b) b p [pm.1, mv] pm.1 mv (b.cell pm.1) (by simp)
        (last2_pair pm.1 mv) rfl hown hcap x hx
    exact ⟨pm.1, mv, hown,
      Or.inl ⟨ext, by simpa using hx1, hcnt, hchain, hint, hlastc⟩⟩
  · have hflag2 : (get_moves b p none).1 = false := by
      rwa [Bool.not_eq_true] at hflag
    rw [if_neg hflag] at hx
    obtain ⟨hmem, hds, -, hall2⟩ :=
      get_moves_false_mem (show (pm.1, pm.2) ∈ _ from hpm) hflag2
    have ht : pm.1 ∈ b.get_player_pieces p := by simpa [tilesFor] using hmem
    have hown : pieceOwner (b.cell pm.1) = some p := (mem_player_pieces.1 ht).2
    have hmvf : (mv, false) ∈ b.get_piece_moves pm.1 := hall2 mv hmv
    obtain ⟨pl, hpl, hdist, hcen, hdot, hne, hcv, hcp, hlen, hframe, hcount⟩ :=
      noncapture_move_cells hmvf
    rw [List.mem_singleton] at hx
    subst hx
    obtain ⟨hinV, hlenV⟩ := dot_inboard hdot
    have hlenV2 : Board.idx mv < (b.move pm.1 mv).grid.length := by
      rw [hlen]
      exact hlenV
    have hmove_cnt : countFor (b.move pm.1 mv) p.other = countFor b p.other := by
      have hh := hcount (fun c => pieceOwner c == some p.other) (by cases p <;> rfl)
      unfold countFor
      exact hh
    refine ⟨pm.1, mv, hown, Or.inr ⟨rfl, ?_, hdist, ?_⟩⟩
    · show countFor (if (mv.y = 0 ∨ mv.y = 7) ∧ isKingChar ((b.move pm.1 mv).cell mv) = false
          then (b.move pm.1 mv).set mv (kingChar p) else b.move pm.1 mv) p.other
        = countFor b p.other
      rw [hcv]
      split_ifs with hpromo
      · have hh := countP_cell_set (b.move pm.1 mv) mv (kingChar p)
          (fun c => pieceOwner c == some p.other) hinV hlenV2
        simp only [] at hh
        rw [hcv] at hh
        have h1 : ((pieceOwner (b.cell pm.1) == some p.other) : Bool) = false := by
          rw [hown]
          cases p <;> rfl
        have h2 : ((pieceOwner (kingChar p) == some p.other) : Bool) = false := by
          rw [pieceOwner_kingChar]
          cases p <;> rfl
        simp only [h1, h2] at hh
        simp at hh
        unfold countFor at hmove_cnt ⊢
        omega
      · exact hmove_cnt
    · show (if (mv.y = 0 ∨ mv.y = 7) ∧ isKingChar ((b.move pm.1 mv).cell mv) = false
          then (b.move pm.1 mv).set mv (kingChar p) else b.move pm.1 mv).cell mv
        = _
      rw [hcv]
      split_ifs with hpromo
      · rw [cell_set_self hinV hlenV2]
      · exact hcv

/-! ### Search engine lemmas -/

theorem insertCache_ok {p : Player} {c : Cache} {b : Board}
    (hc : CacheOK p c) : CacheOK p (insertCache c b.grid (b.score p)) := by
  intro e he
  unfold insertCache at he
  rcases List.mem_append.1 he with h1 | h1
  · exact hc e h1
  · rw [List.mem_singleton] at h1
    subst h1
    rfl

theorem searchMax_cache {p : Player}
    {ev : Board → XInt → XInt → Cache → Int × Cache}
    (hev : ∀ nb a2 b2 c, CacheOK p c → CacheOK p (ev nb a2 b2 c).2) :
    ∀ (l : List (List vec2 × Board)) (best : Int × List vec2) (alpha beta : XInt)
      (c : Cache), CacheOK p c → CacheOK p (searchMax ev l best alpha beta c).2.2 := by
  intro l
  induction l with
  | nil =>
    intro best alpha beta c hc
    exact hc
  | cons hd tl ih =>
    obtain ⟨cm, nb⟩ := hd
    intro best alpha beta c hc
    simp only [searchMax]
    split_ifs with h1 h2 h3 <;>
      first
        | exact hev nb alpha beta c hc
        | exact ih _ _ _ _ (hev nb alpha beta c hc)

theorem searchMin_cache {p : Player}
    {ev : Board → XInt → XInt → Cache → Int × Cache}
    (hev : ∀ nb a2 b2 c, CacheOK p c → CacheOK p (ev nb a2 b2 c).2) :
    ∀ (l : List (List vec2 × Board)) (best : Int × List vec2) (alpha beta : XInt)
      (c : Cache), CacheOK p c → CacheOK p (searchMin ev l best alpha beta c).2.2 := by
  intro l
  induction l with
  | nil =>
    intro best alpha beta c hc
    exact hc
  | cons hd tl ih =>
    obtain ⟨cm, nb⟩ := hd
    intro best alpha beta c hc
    simp only [searchMin]
    split_ifs with h1 h2 h3 <;>
      first
        | exact hev nb alpha beta c hc
        | exact ih _ _ _ _ (hev nb alpha beta c hc)

theorem minimax_cacheOK : ∀ (d : Nat) (b : Board) (p : Player) (maxi : Bool)
    (alpha beta : XInt) (c : Cache), CacheOK p c →
    CacheOK p (minimax d b p maxi alpha beta c).2.2 := by
  intro d
  induction d with
  | zero =>
    intro b p maxi alpha beta c hc
    simp only [minimax]
    split
    · exact hc
    · split_ifs with h1 h2
      · exact hc
      · exact hc
      · exact insertCache_ok hc
  | succ d ih =>
    intro b p maxi alpha beta c hc
    simp only [minimax]
    split
    · exact hc
    · split_ifs with h1 h2 h3
      · exact hc
      · exact hc
      · exact searchMax_cache (fun nb a2 b2 c2 hc2 => ih nb p false a2 b2 c2 hc2)
          _ _ _ _ _ hc
      · exact searchMin_cache (fun nb a2 b2 c2 hc2 => ih nb p true a2 b2 c2 hc2)
          _ _ _ _ _ hc

theorem minimax_hit {d : Nat} {b : Board} {p : Player} {maxi : Bool}
    {alpha beta : XInt} {c : Cache} {s : Int}
    (h : lookupCache c b.grid = some s) :
    minimax d b p maxi alpha beta c = (s, [], c) := by
  cases d <;> simp only [minimax, h]

theorem minimax_no_pieces {d : Nat} {b : Board} {p : Player} {maxi : Bool}
    {alpha beta : XInt} {c : Cache}
    (hl : lookupCache c b.grid = none)
    (hp : b.get_player_pieces p = []) :
    minimax d b p maxi alpha beta c = (-1000 - (d : Int), [], c) := by
  cases d with
  | zero =>
    simp only [minimax, hl]
    rw [if_pos (by rw [hp]; rfl)]
    norm_num
  | succ d =>
    simp only [minimax, hl]
    rw [if_pos (by rw [hp]; rfl)]
    push_cast
    rfl

theorem minimax_blocked {d : Nat} {b : Board} {p : Player}
    {alpha beta : XInt} {c : Cache}
    (hl : lookupCache c b.grid = none)
    (hp : b.get_player_pieces p ≠ [])
    (ho : b.get_player_pieces p.other ≠ [])
    (hm : get_compound_moves b p = []) :
    minimax (d + 1) b p true alpha beta c = (-2000 + ((d : Int) + 1), [], c) := by
  simp only [minimax, hl]
  rw [if_neg (by intro hh; exact hp (List.isEmpty_iff.1 hh))]
  rw [if_neg (by intro hh; exact ho (List.isEmpty_iff.1 hh))]
  rw [if_pos trivial]
  rw [hm]
  rfl

/-! ### Auxiliary lemmas for the claims -/

theorem dot_isTile {b : Board} {pos : vec2} (hwf : WellFormed b)
    (h : b.cell pos = '.') : Board.IsTile pos := by
  have hin := (dot_inboard h).1
  by_contra hnt
  have hb := hwf.2 pos (mem_AllTiles.2 hin) hnt
  rw [hb] at h
  cases h

theorem getD_mem_dropLast (l : List vec2) (k : Nat) (d : vec2)
    (hk : k < l.length - 1) : l.getD k d ∈ l.dropLast := by
  have hlen : k < l.dropLast.length := by
    rw [List.length_dropLast]
    exact hk
  have hklen : k < l.length := by omega
  have he : l.getD k d = l.dropLast.getD k d := by
    simp [List.getD, List.getElem?_eq_getElem hlen, List.getElem?_eq_getElem hklen,
      List.getElem_dropLast]
  rw [he]
  have he2 : l.dropLast.getD k d = l.dropLast[k] := by
    simp [List.getD, List.getElem?_eq_getElem hlen]
  rw [he2]
  exact List.getElem_mem hlen

theorem getD_length_sub_one {l : List vec2} (d d2 : vec2) (h : l ≠ []) :
    l.getD (l.length - 1) d = l.getLastD d2 := by
  have hlen : l.length - 1 < l.length := by
    cases l with
    | nil => exact absurd rfl h
    | cons hd tl =>
      rw [List.length_cons]
      omega
  have h1 : l.getD (l.length - 1) d = l[l.length - 1] := by
    simp [List.getD, List.getElem?_eq_getElem hlen]
  have h2 : l.getLastD d2 = l[l.length - 1] := by
    rw [List.getLastD_eq_getLast?, List.getLast?_eq_getElem?,
      List.getElem?_eq_getElem hlen]
    rfl
  rw [h1, h2]

theorem chain2_captureSteps : ∀ (l : List vec2) (u : vec2),
    List.Chain' (fun a b2 => vec2.distance a b2 = 2) (u :: l) →
    captureSteps (u :: l) = l.length := by
  intro l
  induction l with
  | nil =>
    intro u _
    rfl
  | cons v tl ih =>
    intro u hch
    rw [List.chain'_cons] at hch
    have hrec := ih v hch.2
    unfold captureSteps at hrec ⊢
    show List.countP _ ((u, v) :: (v :: tl).zip tl) = tl.length + 1
    rw [List.countP_cons]
    simp only [List.tail_cons] at hrec
    simp [hch.1]
    omega

theorem center_some_iff {a b2 m : vec2} (h : vec2.center a b2 = some m) :
    a.x + b2.x = 2 * m.x ∧ a.y + b2.y = 2 * m.y := by
  unfold vec2.center at h
  split_ifs at h with hcond
  push_neg at hcond
  obtain ⟨h1, h2⟩ := hcond
  simp only [vec2_add_x, vec2_add_y] at h1 h2
  have hm : m = (⟨(a + b2).x / 2, (a + b2).y / 2⟩ : vec2) := by
    injection h with hh
    exact hh.symm
  subst hm
  constructor
  · show a.x + b2.x = 2 * ((a + b2).x / 2)
    simp only [vec2_add_x]
    omega
  · show a.y + b2.y = 2 * ((a + b2).y / 2)
    simp only [vec2_add_y]
    omega

/-! ### The claims -/

/-- C1: side-level move generation obeys the forced-capture rule.  When some
iterated piece has a capturing destination the flag is set (1); every listed
destination is then a capturing destination of its piece and entries are
non-empty (2); a piece with no capture gets no entry (3).  When no piece has a
capture, every listed destination is non-capturing (4) and, without a locked
piece, every destination of every piece of the side is listed (5).  With a
locked piece that has no captures the result map is empty (6). -/
theorem spec_c1_forced_capture (b : Board) (p : Player) (locked : Option vec2) :
    ((get_moves b p locked).1 = true ↔
      ∃ t ∈ tilesFor b p locked, ∃ d, (d, true) ∈ b.get_piece_moves t)
    ∧ ((get_moves b p locked).1 = true →
      ∀ e ∈ (get_moves b p locked).2, e.2 ≠ [] ∧
        ∀ d ∈ e.2, (d, true) ∈ b.get_piece_moves e.1)
    ∧ ((get_moves b p locked).1 = true →
      ∀ t, (∀ d, (d, true) ∉ b.get_piece_moves t) →
        ∀ ds, (t, ds) ∉ (get_moves b p locked).2)
    ∧ ((get_moves b p locked).1 = false →
      ∀ e ∈ (get_moves b p locked).2,
        ∀ d ∈ e.2, (d, false) ∈ b.get_piece_moves e.1)
    ∧ ((get_moves b p locked).1 = false → locked = none →
      ∀ t ∈ b.get_player_pieces p, ∀ d c2, (d, c2) ∈ b.get_piece_moves t →
        ∃ ds, (t, ds) ∈ (get_moves b p locked).2 ∧ d ∈ ds)
    ∧ (∀ l, locked = some l → (∀ d, (d, true) ∉ b.get_piece_moves l) →
      (get_moves b p locked).2 = []) := by
  refine ⟨get_moves_flag_iff, ?_, ?_, ?_, ?_, ?_⟩
  · intro hflag e he
    obtain ⟨-, -, hne, hall⟩ := get_moves_true_mem (show (e.1, e.2) ∈ _ from he) hflag
    exact ⟨hne, hall⟩
  · intro hflag t hnone ds hmem
    obtain ⟨-, -, hne, hall⟩ := get_moves_true_mem hmem hflag
    rcases List.exists_mem_of_ne_nil _ hne with ⟨d, hd⟩
    exact hnone d (hall d hd)
  · intro hflag e he
    obtain ⟨-, -, -, hall⟩ := get_moves_false_mem (show (e.1, e.2) ∈ _ from he) hflag
    exact hall
  · intro hflag hl t ht d c2 hd
    subst hl
    exact get_moves_false_complete hflag ht hd
  · intro l hl hno
    subst hl
    have hcaps : capsOf b l = [] := by
      rcases hc : capsOf b l with _ | ⟨d, ds⟩
      · rfl
      · exact absurd (mem_capsOf.1 (by rw [hc]; exact List.mem_cons_self d ds))
          (hno d)
    rw [get_moves_locked_nocaps hcaps]

theorem spec_c1_witness :
    ((⟨3, 0⟩ : vec2), true) ∈ promoBoard.get_piece_moves ⟨1, 2⟩ :=
  ((spec_c1_forced_capture promoBoard Player.one none).2.1 (by decide)
    ((⟨1, 2⟩ : vec2), [(⟨3, 0⟩ : vec2)]) (by decide)).2 ⟨3, 0⟩ (by decide)

/-- C2: in every compound move of a non-king piece, a landing square on row 0
or row 7 is the final square of the move, and in the yielded resulting
position that square holds the mover's king — no capture steps follow a
crowning, even when further jumps would be geometrically available. -/
theorem spec_c2_promotion_ends_chain (b : Board) (p : Player)
    (x : List vec2 × Board) (hx : x ∈ get_compound_moves b p)
    (hman : b.cell (x.1.headD ⟨0, 0⟩) = manChar p) :
    ∀ j, 0 < j → j < x.1.length →
      ((x.1.getD j ⟨0, 0⟩).y = 0 ∨ (x.1.getD j ⟨0, 0⟩).y = 7) →
      j = x.1.length - 1 ∧ x.2.cell (x.1.getD j ⟨0, 0⟩) = kingChar p := by
  obtain ⟨t, mv, hown, hcase⟩ := gcm_mem hx
  rcases hcase with ⟨ext, hx1, -, -, hint, hlastc⟩ | ⟨hx1, -, -, hcell⟩
  · intro j hj0 hjlen hfar
    rw [hx1] at hman hjlen hfar ⊢
    simp only [List.headD_cons] at hman
    have hkman : isKingChar (b.cell t) = false := by
      rw [hman]
      exact isKingChar_manChar p
    obtain ⟨k, rfl⟩ : ∃ k, j = k + 1 := ⟨j - 1, by omega⟩
    rw [List.length_cons, List.length_cons] at hjlen
    rw [List.getD_cons_succ] at hfar ⊢
    by_cases hlast : k = ext.length
    · subst hlast
      constructor
      · rw [List.length_cons, List.length_cons]
        omega
      · have hgl : (mv :: ext).getD ext.length ⟨0, 0⟩ = (mv :: ext).getLastD mv := by
          have hl2 : ext.length = (mv :: ext).length - 1 := by
            rw [List.length_cons]
            omega
          rw [hl2]
          exact getD_length_sub_one ⟨0, 0⟩ mv (by simp)
        rw [hgl] at hfar ⊢
        rw [hlastc, if_pos ⟨hfar, hkman⟩]
    · exfalso
      have hk2 : k < (mv :: ext).length - 1 := by
        rw [List.length_cons]
        omega
      have hmem := getD_mem_dropLast (mv :: ext) k ⟨0, 0⟩ hk2
      have hne := hint hkman _ hmem
      rcases hfar with h0 | h7
      · exact hne.1 h0
      · exact hne.2 h7
  · intro j hj0 hjlen hfar
    rw [hx1] at hman hjlen hfar ⊢
    simp only [List.headD_cons] at hman
    have hkman : isKingChar (b.cell t) = false := by
      rw [hman]
      exact isKingChar_manChar p
    have hj1 : j = 1 := by
      simp only [List.length_cons, List.length_nil] at hjlen
      omega
    subst hj1
    have hget : ([t, mv] : List vec2).getD 1 ⟨0, 0⟩ = mv := rfl
    rw [hget] at hfar ⊢
    refine ⟨by simp, ?_⟩
    rw [hcell, if_pos ⟨hfar, hkman⟩]

theorem spec_c2_witness :
    1 = ((get_compound_moves promoBoard Player.one).headD
          ([], promoBoard)).1.length - 1
    ∧ ((get_compound_moves promoBoard Player.one).headD ([], promoBoard)).2.cell
        (((get_compound_moves promoBoard Player.one).headD
          ([], promoBoard)).1.getD 1 ⟨0, 0⟩)
        = kingChar Player.one :=
  spec_c2_promotion_ends_chain promoBoard Player.one
    ((get_compound_moves promoBoard Player.one).headD ([], promoBoard))
    (by decide) (by decide) 1 (by decide) (by decide) (by decide)

/-- C3: compound-move expansion terminates — any fuel at least the number of
pieces yields the same (complete) expansion — and each yielded resulting
position has exactly one opposing piece fewer per capture step of the chain
(so the chain length is bounded by the opposing piece count), and an
unchanged opposing count for a non-capturing move. -/
theorem spec_c3_termination_and_counts (b : Board) (p : Player) :
    (∀ f, pieceCount b ≤ f → get_compound_movesF f b p = get_compound_moves b p)
    ∧ ∀ x ∈ get_compound_moves b p,
        countFor x.2 p.other + captureSteps x.1 = countFor b p.other
        ∧ captureSteps x.1 ≤ countFor b p.other := by
  constructor
  · intro f hf
    exact gcmF_stable hf
  · intro x hx
    obtain ⟨t, mv, hown, hcase⟩ := gcm_mem hx
    rcases hcase with ⟨ext, hx1, hcnt, hchain, -, -⟩ | ⟨hx1, hcnt, hdist, -⟩
    · rw [hx1]
      have hcs := chain2_captureSteps (mv :: ext) t hchain
      rw [hcs, List.length_cons]
      omega
    · rw [hx1]
      have hcs : captureSteps [t, mv] = 0 := by
        unfold captureSteps
        simp [hdist]
      rw [hcs]
      omega

theorem spec_c3_witness :
    countFor ((get_compound_moves promoBoard Player.one).headD
        ([], promoBoard)).2 Player.one.other
      + captureSteps ((get_compound_moves promoBoard Player.one).headD
        ([], promoBoard)).1
      = countFor promoBoard Player.one.other :=
  ((spec_c3_termination_and_counts promoBoard Player.one).2
    ((get_compound_moves promoBoard Player.one).headD ([], promoBoard))
    (by decide)).1

/-- C4: transposition-cache soundness.  A cache hit returns the stored score
with an empty move and an unchanged cache, and the search preserves the
invariant that every cache entry maps a position encoding to exactly the
depth-0 heuristic score of that position for the searching side — the only
write is in the depth-0 branch, which stores `board.score p`. -/
theorem spec_c4_cache_soundness (d : Nat) (b : Board) (p : Player) (maxi : Bool)
    (alpha beta : XInt) (c : Cache) :
    (∀ s, lookupCache c b.grid = some s →
      minimax d b p maxi alpha beta c = (s, [], c))
    ∧ (CacheOK p c → CacheOK p (minimax d b p maxi alpha beta c).2.2) := by
  constructor
  · intro s hs
    exact minimax_hit hs
  · intro hc
    exact minimax_cacheOK d b p maxi alpha beta c hc

theorem spec_c4_witness :
    CacheOK Player.one
      (minimax 0 (Board.init none) Player.one true XInt.negInf XInt.posInf []).2.2
    ∧ minimax 2 (Board.init none) Player.one true XInt.negInf XInt.posInf
        [((Board.init none).grid, 5)]
      = (5, [], [((Board.init none).grid, 5)]) :=
  ⟨(spec_c4_cache_soundness 0 (Board.init none) Player.one true XInt.negInf
      XInt.posInf []).2 (fun e he => absurd he (List.not_mem_nil e)),
   (spec_c4_cache_soundness 2 (Board.init none) Player.one true XInt.negInf
      XInt.posInf [((Board.init none).grid, 5)]).1 5 (by decide)⟩

/-- C5 (amended): with an empty-for-this-position cache, a side with no pieces
gets score `-1000 - depth` with an empty move list; a side with pieces but no
legal compound move raises no error and also gets an empty move list, but with
the maximizing-loop sentinel score `-2000 + depth`, not the `-1000 - depth`
win/loss score; a non-empty returned move list is not guaranteed merely
because legal moves exist. -/
theorem spec_c5_no_moves_behavior (b : Board) (p : Player) (d : Nat)
    (maxi : Bool) (alpha beta : XInt) (c : Cache)
    (hl : lookupCache c b.grid = none) :
    (b.get_player_pieces p = [] →
      minimax d b p maxi alpha beta c = (-1000 - (d : Int), [], c))
    ∧ (b.get_player_pieces p ≠ [] → b.get_player_pieces p.other ≠ [] →
      get_compound_moves b p = [] → ∀ k, d = k + 1 →
      minimax d b p true alpha beta c = (-2000 + ((k : Int) + 1), [], c)) := by
  constructor
  · intro hp
    exact minimax_no_pieces hl hp
  · intro hp ho hm k hd
    subst hd
    exact minimax_blocked hl hp ho hm

theorem spec_c5_witness :
    minimax 2 loneBoard Player.one true XInt.negInf XInt.posInf []
      = (-1000 - ((2 : Nat) : Int), [], [])
    ∧ minimax 1 blockedBoard Player.one true XInt.negInf XInt.posInf []
      = (-2000 + (((0 : Nat) : Int) + 1), [], []) :=
  ⟨(spec_c5_no_moves_behavior loneBoard Player.one 2 true XInt.negInf
      XInt.posInf [] (by decide)).1 (by decide),
   (spec_c5_no_moves_behavior blockedBoard Player.one 1 true XInt.negInf
      XInt.posInf [] (by decide)).2 (by decide) (by decide) (by decide) 0 rfl⟩

theorem spec_c5_counterexample :
    ((minimax 3 trapBoard Player.one true XInt.negInf XInt.posInf []).2.1 = []
      ∧ get_compound_moves trapBoard Player.one ≠ [])
    ∧ ((minimax 1 blockedBoard Player.one true XInt.negInf XInt.posInf []).1
        = -1999
      ∧ Board.get_player_pieces blockedBoard Player.one ≠ []
      ∧ get_compound_moves blockedBoard Player.one = []
      ∧ (-1999 : Int) ≠ -1000 - 1) :=
  ⟨⟨by decide, by decide⟩, by decide, by decide, by decide, by decide⟩

/-- C6: every destination generated for a piece is an in-board playable cell
that is empty, and a capturing destination arises only with an opposing piece
on the adjacent (midpoint) cell and an empty in-bounds landing cell beyond. -/
theorem spec_c6_piece_moves_sound (b : Board) (pos : vec2) (hwf : WellFormed b) :
    ∀ mv ∈ b.get_piece_moves pos,
      Board.IsTile mv.1 ∧ b.cell mv.1 = '.' ∧
      (mv.2 = true → ∃ pl mid, pieceOwner (b.cell pos) = some pl ∧
        vec2.center pos mv.1 = some mid ∧
        pieceOwner (b.cell mid) = some pl.other) := by
  intro mv hmv
  obtain ⟨d2, c2⟩ := mv
  cases c2 with
  | false =>
    obtain ⟨pl, hpl, hdist, hcen, hdot, hrest⟩ := noncapture_move_cells hmv
    refine ⟨dot_isTile hwf hdot, hdot, ?_⟩
    intro hcon
    cases hcon
  | true =>
    obtain ⟨pl, mid, hpl, hcen, hmid, hdot, hrest⟩ := capture_shape hmv
    exact ⟨dot_isTile hwf hdot, hdot, fun _ => ⟨pl, mid, hpl, hcen, hmid⟩⟩

theorem spec_c6_witness :
    Board.IsTile (⟨1, 4⟩ : vec2) ∧ (Board.init none).cell ⟨1, 4⟩ = '.' := by
  have hh := spec_c6_piece_moves_sound (Board.init none) ⟨0, 5⟩ (by decide)
    ((⟨1, 4⟩ : vec2), false) (by decide)
  exact ⟨hh.1, hh.2.1⟩

/-- C7: the engine entry point is deterministic — `run` clears the global
cache before searching, so the (score, compound move) pair is independent of
whatever hidden cache state an earlier invocation left behind; repeated calls
with the same position, side and depth return the identical pair. -/
theorem spec_c7_search_deterministic (b : Board) (p : Player) (d : Nat)
    (st1 st2 : Cache) :
    (run_search b p d st1).1 = (run_search b p d st2).1 := rfl

/-- C8 (amended): `Board.__init__` performs no validation — any non-empty
string, malformed or not, is stored verbatim as the grid, and no
`ConfigurationError` (which the code base does not define) is raised. -/
theorem spec_c8_no_validation (s : List Char) (hs : s ≠ []) :
    (Board.init (some s)).grid = s := by
  show (if s.isEmpty then Board.initDefault else ⟨s⟩).grid = s
  rw [if_neg (by intro hh; exact hs (List.isEmpty_iff.1 hh))]

theorem spec_c8_witness : (Board.init (some ['y', 'z'])).grid = ['y', 'z'] :=
  spec_c8_no_validation ['y', 'z'] (by decide)

theorem spec_c8_counterexample :
    (Board.init (some ['x'])).grid = ['x']
    ∧ (['x'] : List Char).length ≠ 64 := by
  exact ⟨rfl, by decide⟩

/-- C9 (amended): the depth update of `run` keeps the previous depth only when
fewer than two timing samples exist; with two or more samples a failing
regression fit propagates out of the depth-update step (there is no handler),
so `run` does not fail soft. -/
theorem spec_c9_depth_update (fit : List (Nat × Nat) → Except FitError Int)
    (depth : Nat) (samples : List (Nat × Nat)) :
    (samples.length ≤ 1 → runDepthUpdate fit depth samples = .ok depth)
    ∧ (∀ e, samples.length > 1 →
      fit (samples.drop (samples.length - 5)) = .error e →
      runDepthUpdate fit depth samples = .error e) := by
  constructor
  · intro h
    unfold runDepthUpdate
    rw [if_neg (by omega)]
  · intro e h hf
    unfold runDepthUpdate
    rw [if_pos h]
    simp only [hf]

theorem spec_c9_witness :
    runDepthUpdate failingFit 9 [(7, 100)] = .ok 9
    ∧ runDepthUpdate failingFit 9 [(7, 100), (8, 200)] = .error .fitFailed :=
  ⟨(spec_c9_depth_update failingFit 9 [(7, 100)]).1 (by decide),
   (spec_c9_depth_update failingFit 9 [(7, 100), (8, 200)]).2 .fitFailed
     (by decide) rfl⟩

theorem spec_c9_counterexample :
    runDepthUpdate failingFit 7 [(7, 100), (8, 250)] = .error .fitFailed
    ∧ runDepthUpdate failingFit 7 [(7, 100), (8, 250)] ≠ .ok 7 := by
  constructor
  · rfl
  · intro hcon
    rw [show runDepthUpdate failingFit 7 [(7, 100), (8, 250)]
        = Except.error FitError.fitFailed from rfl] at hcon
    cases hcon

/-- C10 (amended): for distinct in-board coordinates with a piece at the
source, `Board.move` changes at most three cells — the source becomes empty,
the destination receives the moved cell-state, and the midpoint is cleared
exactly when both coordinate sums are even (a diagonally adjacent step has odd
sums, so `vec2.center` is `none` and no midpoint cell is cleared); every other
cell is unchanged.  The original claim fails at `pos = pos2`. -/
theorem spec_c10_move_frame (b : Board) (pos pos2 : vec2)
    (hlen64 : b.grid.length = 64)
    (hin1 : Board.IsInBoard pos) (hin2 : Board.IsInBoard pos2)
    (hne : pos ≠ pos2)
    (hpiece : (pieceOwner (b.cell pos)).isSome = true) :
    (b.move pos pos2).cell pos2 = b.cell pos
    ∧ (b.move pos pos2).cell pos = '.'
    ∧ (∀ mid, vec2.center pos pos2 = some mid → (b.move pos pos2).cell mid = '.')
    ∧ ((vec2.center pos pos2).isSome = true ↔
        (pos.x + pos2.x) % 2 = 0 ∧ (pos.y + pos2.y) % 2 = 0)
    ∧ (∀ q, q ≠ pos → q ≠ pos2 → vec2.center pos pos2 ≠ some q →
        (b.move pos pos2).cell q = b.cell q)
    ∧ (∀ u v : vec2, ((u.x + v.x) % 2 ≠ 0 ∨ (u.y + v.y) % 2 ≠ 0) →
        vec2.center u v = none) := by
  obtain ⟨a1, a2, a3, a4⟩ := hin1
  obtain ⟨b1, b2, b3, b4⟩ := hin2
  have hin1 : Board.IsInBoard pos := ⟨a1, a2, a3, a4⟩
  have hin2 : Board.IsInBoard pos2 := ⟨b1, b2, b3, b4⟩
  have hidx1 : Board.idx pos < b.grid.length := by
    rw [hlen64]
    unfold Board.idx
    omega
  have hidx2 : Board.idx pos2 < b.grid.length := by
    rw [hlen64]
    unfold Board.idx
    omega
  have hc4 : (vec2.center pos pos2).isSome = true ↔
      (pos.x + pos2.x) % 2 = 0 ∧ (pos.y + pos2.y) % 2 = 0 := by
    constructor
    · intro hs
      rcases hcc : vec2.center pos pos2 with _ | mid
      · rw [hcc] at hs
        cases hs
      · obtain ⟨e1, e2⟩ := center_some_iff hcc
        constructor <;> omega
    · rintro ⟨e1, e2⟩
      have hcc : vec2.center pos pos2
          = some ⟨(pos.x + pos2.x) / 2, (pos.y + pos2.y) / 2⟩ :=
        center_eq (by simp [vec2_mk_x]; omega) (by simp [vec2_mk_y]; omega)
      rw [hcc]
      rfl
  have hc6 : ∀ u v : vec2, ((u.x + v.x) % 2 ≠ 0 ∨ (u.y + v.y) % 2 ≠ 0) →
      vec2.center u v = none := fun u v h => center_none h
  rcases hc : vec2.center pos pos2 with _ | mid
  · have hmove : b.move pos pos2 = (b.set pos2 (b.cell pos)).set pos '.' := by
      unfold Board.move
      rw [if_pos hpiece, hc]
    refine ⟨?_, ?_, ?_, hc ▸ hc4, ?_, hc6⟩
    · rw [hmove, cell_set_ne hin1 (Ne.symm hne), cell_set_self hin2 hidx2]
    · rw [hmove, cell_set_self hin1 (by rw [grid_length_set]; exact hidx1)]
    · intro mid hmid
      cases hmid
    · intro q hq1 hq2 hq3
      rw [hmove, cell_set_ne hin1 hq1, cell_set_ne hin2 hq2]
  · obtain ⟨e1, e2⟩ := center_some_iff hc
    have hmp : mid ≠ pos := by
      intro heq
      subst heq
      apply hne
      rw [vec2_eq_iff]
      constructor <;> omega
    have hmp2 : mid ≠ pos2 := by
      intro heq
      subst heq
      apply hne
      rw [vec2_eq_iff]
      constructor <;> omega
    have hinMid : Board.IsInBoard mid := ⟨by omega, by omega, by omega, by omega⟩
    have hidxm : Board.idx mid < b.grid.length := by
      rw [hlen64]
      unfold Board.idx
      obtain ⟨m1, m2, m3, m4⟩ := hinMid
      omega
    have hmove : b.move pos pos2
        = ((b.set pos2 (b.cell pos)).set pos '.').set mid '.' := by
      unfold Board.move
      rw [if_pos hpiece, hc]
    refine ⟨?_, ?_, ?_, hc ▸ hc4, ?_, hc6⟩
    · rw [hmove, cell_set_ne hinMid (Ne.symm hmp2), cell_set_ne hin1 (Ne.symm hne),
        cell_set_self hin2 hidx2]
    · rw [hmove, cell_set_ne hinMid (Ne.symm hmp),
        cell_set_self hin1 (by rw [grid_length_set]; exact hidx1)]
    · intro mid2 hmid2
      obtain rfl : mid = mid2 := by injection hmid2
      rw [hmove, cell_set_self hinMid
        (by rw [grid_length_set, grid_length_set]; exact hidxm)]
    · intro q hq1 hq2 hq3
      have hq4 : q ≠ mid := by
        intro heq
        exact hq3 (by rw [heq])
      rw [hmove, cell_set_ne hinMid hq4, cell_set_ne hin1 hq1,
        cell_set_ne hin2 hq2]

theorem spec_c10_witness :
    ((Board.init none).move ⟨2, 5⟩ ⟨3, 4⟩).cell ⟨3, 4⟩
      = (Board.init none).cell ⟨2, 5⟩ :=
  (spec_c10_move_frame (Board.init none) ⟨2, 5⟩ ⟨3, 4⟩ (by decide) (by decide)
    (by decide) (by decide) (by decide)).1

theorem spec_c10_counterexample :
    Board.IsInBoard (⟨0, 5⟩ : vec2)
    ∧ (pieceOwner ((Board.init none).cell ⟨0, 5⟩)).isSome = true
    ∧ (Board.init none).cell ⟨0, 5⟩ = '1'
    ∧ ((Board.init none).move ⟨0, 5⟩ ⟨0, 5⟩).cell ⟨0, 5⟩ = '.'
    ∧ ((Board.init none).move ⟨0, 5⟩ ⟨0, 5⟩).cell ⟨0, 5⟩
        ≠ (Board.init none).cell ⟨0, 5⟩ :=
  ⟨by decide, by decide, by decide, by decide, by decide⟩
